import Mathlib

set_option maxHeartbeats 1000000
set_option maxRecDepth 10000

/-! Shallow embedding of the offline dictionary file engine of
    src/src/sdict_file.h (class dictionary_file) and of the batch build tool
    (save_words main). Bytes are modelled as Nat values below 256; a file is a
    List Nat. Machine integers are Nat with explicit mod 2 ^ 32 / mod 2 ^ 64
    where the C++ code truncates. Member functions that can throw
    std::runtime_error or std::logic_error are modelled in Except String. -/

namespace SDict

/-- Magic bytes "SDICT\x01\x00". -/
def magicBytes : List Nat := [0x53, 0x44, 0x49, 0x43, 0x54, 0x01, 0x00]

/-- FNV-1a-64 offset basis (dictionary_file::fnv_init). -/
def fnv_init : Nat := 0xcbf29ce484222325

/-- FNV-1a-64 (dictionary_file::fnv1a): for each byte, xor then multiply by
    0x100000001b3, modulo 2 ^ 64.  init is the explicit accumulator argument
    (the C++ default is fnv_init). -/
def fnv1a (data : List Nat) (init : Nat) : Nat :=
  data.foldl (fun h b => ((h ^^^ b) * 0x100000001b3) % 2 ^ 64) init

/-- Read one byte of a file; 0 beyond the end.  All byte reads in the verified
    flows are in bounds; where the C++ streams would hit EOF and throw, the
    embedding guards the length explicitly. -/
def readByte (f : List Nat) (p : Nat) : Nat := f.getD p 0

/-- Read n bytes starting at position p. -/
def readBytes (f : List Nat) (p n : Nat) : List Nat :=
  (List.range n).map (fun i => readByte f (p + i))

/-- Little-endian value of a byte list. -/
def fromLE : List Nat → Nat
  | [] => 0
  | b :: bs => b + 256 * fromLE bs

/-- The four bytes written by dictionary_file::write_uint32_LE. -/
def u32le (n : Nat) : List Nat :=
  [n % 256, n / 256 % 256, n / 2 ^ 16 % 256, n / 2 ^ 24 % 256]

/-- The eight bytes written by dictionary_file::write_uint64_LE. -/
def u64le (n : Nat) : List Nat :=
  [n % 256, n / 256 % 256, n / 2 ^ 16 % 256, n / 2 ^ 24 % 256,
   n / 2 ^ 32 % 256, n / 2 ^ 40 % 256, n / 2 ^ 48 % 256, n / 2 ^ 56 % 256]

/-- dictionary_file::read_uint32_LE at an absolute position. -/
def readU32 (f : List Nat) (p : Nat) : Nat := fromLE (readBytes f p 4)

/-- dictionary_file::read_uint64_LE at an absolute position. -/
def readU64 (f : List Nat) (p : Nat) : Nat := fromLE (readBytes f p 8)

/-- Overwrite bytes of f starting at position p (seekp then sequential puts;
    a seek past the end zero fills, matching file semantics).  Defined
    positionally: byte i of the result is bs (i - p) inside the written
    window and the old byte of f elsewhere. -/
def writeAt (f : List Nat) (p : Nat) (bs : List Nat) : List Nat :=
  (List.range (max f.length (p + bs.length))).map
    (fun i => if p ≤ i ∧ i < p + bs.length then bs.getD (i - p) 0 else f.getD i 0)


/-- One entry of dictionary_file::words: the key and its def offset
    (offset from the start of the defs section, a uint32 in the source). -/
structure WordInfo where
  word : List Nat
  def_ind : Nat
deriving DecidableEq

instance : Inhabited WordInfo := ⟨⟨[], 0⟩⟩

/-- Lexicographic strict order on byte strings: the comparison performed by
    operator<=> on std::string (std::char_traits, unsigned byte semantics). -/
def listLt : List Nat → List Nat → Bool
  | [], [] => false
  | [], _ :: _ => true
  | _ :: _, [] => false
  | a :: as, b :: bs => if a < b then true else if b < a then false else listLt as bs

/-- Ordered insertion with respect to a strict Bool comparator. -/
def ordInsert (lt : α → α → Bool) (x : α) : List α → List α
  | [] => [x]
  | y :: ys => if lt x y then x :: y :: ys else y :: ordInsert lt x ys

/-- Insertion sort with respect to a strict Bool comparator.  The source uses
    std::sort; on ranges that are distinct under the comparator every
    comparison sort produces the same output, and whenever the range has
    equivalent elements the callers below throw, so insertion sort is an
    observationally exact model. -/
def ordSort (lt : α → α → Bool) : List α → List α
  | [] => []
  | x :: xs => ordInsert lt x (ordSort lt xs)

/-- std::adjacent_find with respect to a Bool equality test. -/
def adjBy (eq : α → α → Bool) : List α → Bool
  | [] => false
  | [_] => false
  | x :: y :: rest => eq x y || adjBy eq (y :: rest)

/-- word_info::operator<=> compares the keys only. -/
def wLt (x y : WordInfo) : Bool := listLt x.word y.word

def insertWord (x : WordInfo) (l : List WordInfo) : List WordInfo := ordInsert wLt x l

/-- Sorting by key (std::sort with word_info comparison). -/
def sortWord (l : List WordInfo) : List WordInfo := ordSort wLt l

/-- Fueled stable merge of two runs (std::inplace_merge: an element of the
    second range precedes an equivalent element of the first range never). -/
def mergeWordF : Nat → List WordInfo → List WordInfo → List WordInfo
  | 0, xs, ys => xs ++ ys
  | _ + 1, [], ys => ys
  | _ + 1, x :: xs, [] => x :: xs
  | fuel + 1, x :: xs, y :: ys =>
    if listLt y.word x.word then y :: mergeWordF fuel (x :: xs) ys
    else x :: mergeWordF fuel xs (y :: ys)

def mergeWord (xs ys : List WordInfo) : List WordInfo :=
  mergeWordF (xs.length + ys.length) xs ys

/-- std::adjacent_find with word_info::operator== (key equality). -/
def adjDup (l : List WordInfo) : Bool := adjBy (fun x y => x.word == y.word) l

/-- dictionary_file::sort_words: sort the new tail, fail on a repeated key
    inside the tail, then merge into the sorted part.  first_new_word becomes
    none (-1) on success. -/
def sort_words (ws : List WordInfo) (fnw : Nat) : Except String (List WordInfo) :=
  let tl := sortWord (ws.drop fnw)
  if adjDup tl then .error "Repeated words were inserted"
  else .ok (mergeWord (ws.take fnw) tl)

/-- In-memory two-level map std::unordered_map of def size to
    (std::unordered_map of def hash to vector of def offsets), modelled as
    nested association lists: the maps are only ever looked up by exact key
    and pushed to, never iterated, so an association list has the same
    observable behaviour. -/
abbrev EdsMap := List (Nat × List (Nat × List Nat))

def innerPush : List (Nat × List Nat) → Nat → Nat → List (Nat × List Nat)
  | [], hash, di => [(hash, [di])]
  | (h, l) :: rest, hash, di =>
    if h = hash then (h, l ++ [di]) :: rest else (h, l) :: innerPush rest hash di

/-- existing_defs[size][hash].push_back(di). -/
def edsPush : EdsMap → Nat → Nat → Nat → EdsMap
  | [], size, hash, di => [(size, [(hash, [di])])]
  | (sz, inner) :: rest, size, hash, di =>
    if sz = size then (sz, innerPush inner hash di) :: rest
    else (sz, inner) :: edsPush rest size hash di

/-- The in-memory state of a dictionary_file object together with the bytes of
    its backing file.  The fstream handle and open_type bookkeeping carry no
    observable data and are omitted; operations that require an associated
    file are only modelled on states that have one. -/
structure DictFile where
  fileData : List Nat
  reserved_words : Nat
  words_sect_size : Nat
  words : List WordInfo
  first_new_word : Option Nat
  existing_defs : EdsMap
  do_dedup : Bool

/-- magic_bytes.size() + 4 + 4 + 4. -/
def inds_section_offset : Nat := 7 + 4 + 4 + 4

def words_section_offset (rw : Nat) : Nat := inds_section_offset + rw * 4 * 2

def defs_section_offset (rw wss : Nat) : Nat := words_section_offset rw + wss

/-- The uint32 value of -1, used by find_def_ind as the not-found sentinel. -/
def u32m1 : Nat := 2 ^ 32 - 1

/-- Fueled replica of the std::lower_bound binary search over indices
    [first, first + count) of ws; called with fuel at least count. -/
def lbAux (ws : List WordInfo) (w : List Nat) : Nat → Nat → Nat → Nat
  | 0, first, _ => first
  | fuel + 1, first, count =>
    if count = 0 then first
    else
      let step := count / 2
      let it := first + step
      if listLt (ws.getD it default).word w then
        lbAux ws w fuel (it + 1) (count - step - 1)
      else
        lbAux ws w fuel first step

/-- dictionary_file::find_def_ind: binary search of the sorted part
    [0, first_new_word), then linear search of the tail; -1 (as uint32,
    u32m1) when not found. -/
def find_def_ind (s : DictFile) (w : List Nat) : Nat :=
  let endIx := match s.first_new_word with
    | none => s.words.length
    | some k => k
  let i := lbAux s.words w endIx 0 endIx
  if i = endIx ∨ (s.words.getD i default).word ≠ w then
    if endIx = s.words.length then u32m1
    else
      match (s.words.drop endIx).find? (fun wi => wi.word == w) with
      | some wi => wi.def_ind
      | none => u32m1
  else (s.words.getD i default).def_ind

/-- The end of the region searched by the binary search of find_def_ind
    (words.size() when first_new_word is -1). -/
def fnwEnd (s : DictFile) : Nat :=
  match s.first_new_word with
  | none => s.words.length
  | some k => k

/-- dictionary_file::contains. -/
def contains (s : DictFile) (w : List Nat) : Bool := find_def_ind s w != u32m1

/-- dictionary_file::num_words. -/
def num_words (s : DictFile) : Nat := s.words.length

/-- dictionary_file::read_def_whole with check_def = false (the default used
    by find): read the stored size, then that many payload bytes after the
    12 byte header. -/
def read_def_whole (s : DictFile) (ind : Nat) : List Nat :=
  let off := defs_section_offset s.reserved_words s.words_sect_size + ind
  readBytes s.fileData (off + 12) (readU32 s.fileData off)

/-- dictionary_file::find (check_def = false). -/
def find (s : DictFile) (w : List Nat) : Option (List Nat) :=
  let ind := find_def_ind s w
  if ind = u32m1 then none else some (read_def_whole s ind)

/-- The bytes written by dictionary_file::create_file: magic, header
    (init_reserved_words = 32, init_words_sect_size = 256, 0 words), zeroed
    index tables and words section; the defs section starts empty. -/
def createData : List Nat :=
  magicBytes ++ u32le 32 ++ u32le 256 ++ u32le 0 ++
    List.replicate (32 * 4 * 2) 0 ++ List.replicate 256 0

/-- dictionary_file state right after create_file (dedup is the deduplicate
    flag given to open). -/
def create_file (dedup : Bool) : DictFile :=
  { fileData := createData, reserved_words := 32, words_sect_size := 256,
    words := [], first_new_word := none, existing_defs := [], do_dedup := dedup }

/-- dictionary_file::get_def_size_and_hash: read the header of the record at
    def_ind; 0 size is corruption; (0, 0) when the size differs from a
    nonzero expected_size. -/
def get_def_size_and_hash (f : List Nat) (def_ind expected_size dso : Nat) :
    Except String (Nat × Nat) :=
  let off := dso + def_ind
  if off + 4 > f.length then .error "Unexpected EOF"
  else
    let size := readU32 f off
    if size = 0 then .error "Read 0 definition size. File may be corrupted"
    else if expected_size ≠ 0 ∧ size ≠ expected_size then .ok (0, 0)
    else if off + 12 > f.length then .error "Unexpected EOF"
    else .ok (size, readU64 f (off + 4))

/-- dictionary_file::get_def_hash: header hash, none when the size check
    fails. -/
def get_def_hash (f : List Nat) (def_ind expected_size dso : Nat) :
    Except String (Option Nat) :=
  match get_def_size_and_hash f def_ind expected_size dso with
  | .error e => .error e
  | .ok (size, hash) => if size = 0 then .ok none else .ok (some hash)

/-- dictionary_file::hash_existing_def: recompute the FNV-1a hash of the
    payload of the record at def_ind by batched reads (folding the 4096 byte
    batches is folding the whole payload). -/
def hash_existing_def (f : List Nat) (def_ind expected_size dso : Nat) :
    Except String (Option Nat) :=
  let off := dso + def_ind
  if off + 4 > f.length then .error "Unexpected EOF"
  else
    let size := readU32 f off
    if size = 0 then .error "Read 0 definition size. File may be corrupted"
    else if expected_size ≠ 0 ∧ size ≠ expected_size then .ok none
    else if off + 12 + size > f.length then .error "Unexpected EOF"
    else .ok (some (fnv1a (readBytes f (off + 12) size) fnv_init))

/-- Candidate scan of get_existing_def_ind: first offset whose stored header
    is (size, hash); the comparison optional == uint64 is engaged-and-equal. -/
def find_dup_cand (f : List Nat) (size hash dso : Nat) :
    List Nat → Except String (Option Nat)
  | [] => .ok none
  | di :: rest =>
    match get_def_hash f di size dso with
    | .error e => .error e
    | .ok (some h) =>
      if h = hash then .ok (some di)
      else find_dup_cand f size hash dso rest
    | .ok none => find_dup_cand f size hash dso rest

/-- dictionary_file::get_existing_def_ind.  The leading assert about a
    nonempty def is a debug assert and has no release semantics; size is the
    uint32 truncation of def.size(). -/
def get_existing_def_ind (s : DictFile) (d : List Nat) : Except String (Option Nat) :=
  let size := d.length % 2 ^ 32
  match s.existing_defs.find? (fun e => e.1 == size) with
  | none => .ok none
  | some (_, inner) =>
    let hash := fnv1a d fnv_init
    match inner.find? (fun e => e.1 == hash) with
    | none => .ok none
    | some (_, cands) =>
      find_dup_cand s.fileData size hash
        (defs_section_offset s.reserved_words s.words_sect_size) cands

/-- Fueled doubling loop (while (x < target) x *= 2); fuel target is enough
    for every positive x, and the source never runs it with x = 0. -/
def growPow2F : Nat → Nat → Nat → Nat
  | 0, x, _ => x
  | fuel + 1, x, target => if x < target then growPow2F fuel (x * 2) target else x

def growPow2 (x target : Nat) : Nat := growPow2F target x target

/-- Packed words section content: each key followed by its null terminator. -/
def packWords (ws : List WordInfo) : List Nat :=
  (ws.map (fun wi => wi.word ++ [0])).flatten

/-- Byte offsets of consecutive packed keys starting at start. -/
def wordOffsets (start : Nat) : List WordInfo → List Nat
  | [] => []
  | wi :: rest => start :: wordOffsets (start + wi.word.length + 1) rest

def wordLen1 (wi : WordInfo) : Nat := wi.word.length + 1

/-- Candidate scan inside rewrite_file: re-read the old size, read size and
    hash of the already-written record in the new file, then compare the
    payloads (the batched comparison of the source also compares indeterminate
    array bytes past the final partial batch, which can only turn a hit into a
    spurious miss; a miss re-appends the payload and never changes what any
    later read returns, and the embedding compares exactly the payloads). -/
def rw_cand_loop (fOld f2 : List Nat) (cur_off size hash dsoNew : Nat) :
    List Nat → Option Nat
  | [] => none
  | found :: rest =>
    if readU32 fOld cur_off ≠ size then
      rw_cand_loop fOld f2 cur_off size hash dsoNew rest
    else if readU32 f2 (dsoNew + found) ≠ size then
      rw_cand_loop fOld f2 cur_off size hash dsoNew rest
    else if readU64 f2 (dsoNew + found + 4) ≠ hash then
      rw_cand_loop fOld f2 cur_off size hash dsoNew rest
    else if readBytes fOld (cur_off + 12) size ≠ readBytes f2 (dsoNew + found + 12) size then
      rw_cand_loop fOld f2 cur_off size hash dsoNew rest
    else some found

/-- Append path of the rewrite_file defs loop: write {size, hash, payload} at
    the end of the new file.  With dedup disabled the source then recomputes
    the streaming hash and writes it at defs_sect_start + def_ind, the START
    of the record it just wrote, not at the hash field 4 bytes further.
    Returns the new file, the updated map, and the record offset. -/
def rw_append (fOld : List Nat) (dedup : Bool) (cur_off size dsoNew : Nat)
    (oh : Option Nat) (f2 : List Nat) (eds : EdsMap) :
    Except String (List Nat × EdsMap × Nat) :=
  if cur_off + 12 + size > fOld.length then .error "Unexpected EOF"
  else
    let hash := if dedup then oh.getD (readU64 fOld (cur_off + 4)) else fnv_init
    let payload := readBytes fOld (cur_off + 12) size
    let di := f2.length - dsoNew
    let f2a := f2 ++ u32le size ++ u64le hash ++ payload
    if dedup then .ok (f2a, edsPush eds size hash di, di)
    else .ok (writeAt f2a (dsoNew + di) (u64le (fnv1a payload fnv_init)), eds, di)

/-- Defs-section loop of rewrite_file over the (sorted) words: per word,
    read the old record header, with dedup search the map rebuilt so far and
    on a full-payload match reuse that offset, otherwise append a copy. -/
def rw_loop (fOld : List Nat) (dedup : Bool) (dsoOld dsoNew : Nat) :
    List WordInfo → List Nat → EdsMap → List WordInfo →
    Except String (List Nat × EdsMap × List WordInfo)
  | [], f2, eds, acc => .ok (f2, eds, acc)
  | wi :: rest, f2, eds, acc =>
    let cur_off := dsoOld + wi.def_ind
    if cur_off + 4 > fOld.length then .error "Unexpected EOF"
    else
      let size := readU32 fOld cur_off
      if size = 0 then .error "Read 0 definition size. File may be corrupted"
      else
        match (if dedup then eds.find? (fun e => e.1 == size) else none) with
        | some (_, inner) =>
          -- get_def_size_and_hash(def_ind, size, old_defs_sect_off) re-reads
          -- the same header: the size check passes, old_hash gets the stored
          -- hash (EOF guard as in the source reads)
          if cur_off + 12 > fOld.length then .error "Unexpected EOF"
          else
            let oh := readU64 fOld (cur_off + 4)
            match inner.find? (fun e => e.1 == oh) with
            | some (_, cands) =>
              match rw_cand_loop fOld f2 cur_off size oh dsoNew cands with
              | some found =>
                rw_loop fOld dedup dsoOld dsoNew rest f2 eds (acc ++ [⟨wi.word, found⟩])
              | none =>
                match rw_append fOld dedup cur_off size dsoNew (some oh) f2 eds with
                | .error e => .error e
                | .ok (f2a, eds2, di) =>
                  rw_loop fOld dedup dsoOld dsoNew rest f2a eds2 (acc ++ [⟨wi.word, di⟩])
            | none =>
              match rw_append fOld dedup cur_off size dsoNew (some oh) f2 eds with
              | .error e => .error e
              | .ok (f2a, eds2, di) =>
                rw_loop fOld dedup dsoOld dsoNew rest f2a eds2 (acc ++ [⟨wi.word, di⟩])
        | none =>
          match rw_append fOld dedup cur_off size dsoNew none f2 eds with
          | .error e => .error e
          | .ok (f2a, eds2, di) =>
            rw_loop fOld dedup dsoOld dsoNew rest f2a eds2 (acc ++ [⟨wi.word, di⟩])

/-- dictionary_file::rewrite_file: write magic, header, word index table,
    placeholder def index table and words section into a fresh temp file, copy
    or dedup the def records, patch the def index table, and rename the temp
    file over the old one (words must already be sorted, the caller grew
    reserved_words and words_sect_size). -/
def rewrite_file (old_rw old_wss : Nat) (s : DictFile) : Except String DictFile :=
  let n := s.words.length
  let packed := packWords s.words
  let header : List Nat :=
    magicBytes ++ u32le s.reserved_words ++ u32le s.words_sect_size ++ u32le n
    ++ ((wordOffsets 0 s.words).map (fun o => u32le (o + 1))).flatten
    ++ List.replicate ((s.reserved_words - n) * 4) 0
    ++ List.replicate (s.reserved_words * 4) 0
    ++ packed ++ List.replicate (s.words_sect_size - packed.length) 0
  let eds0 : EdsMap := if s.do_dedup then [] else s.existing_defs
  let dsoOld := defs_section_offset old_rw old_wss
  match rw_loop s.fileData s.do_dedup dsoOld header.length s.words header eds0 [] with
  | .error e => .error e
  | .ok (f2, eds, acc) =>
    let f3 := writeAt f2 (inds_section_offset + s.reserved_words * 4)
      (((acc.map (fun wi => u32le (wi.def_ind + 1))).flatten)
        ++ List.replicate ((s.reserved_words - n) * 4) 0)
    .ok { s with fileData := f3, words := acc, existing_defs := eds }

/-- dictionary_file::flush.  On the fast path the new keys, their word index
    entries, the tail of the def index table and num_words are written in
    place; otherwise the sections grow by doubling and rewrite_file runs.
    C++ mutates the file before sort_words can throw; the embedding only
    models the state after a successful flush and .error transitions are
    never stepped through. -/
def flush (s : DictFile) : Except String (Bool × DictFile) :=
  match s.first_new_word with
  | none => .ok (false, s)
  | some fnw =>
    let cur_len := ((s.words.take fnw).map wordLen1).sum
    let total_len := ((s.words.drop fnw).map wordLen1).sum + cur_len
    let wss2 := growPow2 s.words_sect_size total_len
    if wss2 ≠ s.words_sect_size ∨ s.reserved_words < s.words.length then
      match sort_words s.words fnw with
      | .error e => .error e
      | .ok sorted =>
        let rw2 := growPow2 s.reserved_words sorted.length
        let s2 : DictFile := { s with
          words := sorted
          first_new_word := none
          words_sect_size := wss2
          reserved_words := rw2 }
        match rewrite_file s.reserved_words s.words_sect_size s2 with
        | .error e => .error e
        | .ok s3 => .ok (true, s3)
    else
      let newWords := s.words.drop fnw
      let f1 := writeAt s.fileData (inds_section_offset - 4) (u32le s.words.length)
      let f2 := writeAt f1 (words_section_offset s.reserved_words + cur_len)
        (packWords newWords)
      let f3 := writeAt f2 (inds_section_offset + fnw * 4)
        (((wordOffsets cur_len newWords).map (fun o => u32le (o + 1))).flatten)
      let f4 := writeAt f3 (inds_section_offset + (s.reserved_words + fnw) * 4)
        ((newWords.map (fun wi => u32le (wi.def_ind + 1))).flatten)
      match sort_words s.words fnw with
      | .error e => .error e
      | .ok sorted =>
        .ok (true, { s with fileData := f4, words := sorted, first_new_word := none })

/-- dictionary_file::add_word with template arguments flush_words and
    skip_dup_check.  The def offset stored in memory is the uint32 truncation
    of file_end - defs_section_offset; the record {size, hash, payload} is
    appended at the end of the file. -/
def add_word (flush_words skip_dup_check : Bool) (w d : List Nat) (s : DictFile) :
    Except String (Bool × DictFile) :=
  if skip_dup_check = false ∧ find_def_ind s w ≠ u32m1 then .ok (false, s)
  else
    let s1 := { s with first_new_word := some (s.first_new_word.getD s.words.length) }
    match (if s1.do_dedup then get_existing_def_ind s1 d else .ok none) with
    | .error e => .error e
    | .ok (some di) =>
      let s2 := { s1 with words := s1.words ++ [⟨w, di⟩] }
      if flush_words then
        match flush s2 with
        | .error e => .error e
        | .ok (_, s3) => .ok (true, s3)
      else .ok (true, s2)
    | .ok none =>
      let dso := defs_section_offset s1.reserved_words s1.words_sect_size
      if s1.fileData.length < dso then .error "Incorrect file size (too small)"
      else
        let cur := (s1.fileData.length - dso) % 2 ^ 32
        let hash := fnv1a d fnv_init
        let s2 : DictFile := { s1 with
          words := s1.words ++ [⟨w, cur⟩],
          existing_defs :=
            if s1.do_dedup then edsPush s1.existing_defs (d.length % 2 ^ 32) hash cur
            else s1.existing_defs,
          fileData := s1.fileData ++ u32le d.length ++ u64le hash ++ d }
        if flush_words then
          match flush s2 with
          | .error e => .error e
          | .ok (_, s3) => .ok (true, s3)
        else .ok (true, s2)

/-- One pass of the index-table read loop of read_file: read count uint32
    values, keep value - 1 for the nonzero ones. -/
def readIndsLoop (data : List Nat) : Nat → Nat → Except String (List Nat)
  | _, 0 => .ok []
  | pos, k + 1 =>
    if pos + 4 > data.length then .error "Unexpected EOF"
    else
      match readIndsLoop data (pos + 4) k with
      | .error e => .error e
      | .ok rest =>
        let v := readU32 data pos
        .ok (if v ≠ 0 then (v - 1) :: rest else rest)

/-- Key read loop of read_file: up to fuel bytes, stopping at the null
    terminator; running off the end of the file is an EOF error. -/
def readWordLoop (data : List Nat) : Nat → Nat → Except String (List Nat)
  | _, 0 => .ok []
  | pos, fuel + 1 =>
    if pos < data.length then
      let c := readByte data pos
      if c = 0 then .ok []
      else
        match readWordLoop data (pos + 1) fuel with
        | .error e => .error e
        | .ok rest => .ok (c :: rest)
    else .error "Unexpected EOF"

/-- Comparator of the zipped (word offset, def offset) sort: first component
    only. -/
def pLt (x y : Nat × Nat) : Bool := x.1 < y.1

/-- std::ranges::sort of the zipped (word offset, def offset) pairs by word
    offset only (the sort permutes both underlying vectors through the zip
    view; on lists with a repeated word offset read_file errors out, so the
    insertion sort is an exact model of the accepted executions). -/
def sortPairs (l : List (Nat × Nat)) : List (Nat × Nat) := ordSort pLt l

/-- std::ranges::adjacent_find on the zipped pairs, comparing word offsets. -/
def adjDupFst (l : List (Nat × Nat)) : Bool := adjBy (fun x y => x.1 == y.1) l

/-- Word-section read loop of read_file: for each (word offset, def offset)
    pair read the key at words_section_offset + word offset, bounded by
    words_sect_size - word_off computed in uint32 arithmetic. -/
def readWordsLoop (data : List Nat) (wso wss : Nat) :
    List (Nat × Nat) → Except String (List WordInfo)
  | [] => .ok []
  | (word_off, def_off) :: rest =>
    match readWordLoop data (wso + word_off) ((wss + 2 ^ 32 - word_off) % 2 ^ 32) with
    | .error e => .error e
    | .ok w =>
      match readWordsLoop data wso wss rest with
      | .error e => .error e
      | .ok ws => .ok (⟨w, def_off⟩ :: ws)

/-- dictionary_file::read_file: parse and validate magic, header, the two
    index tables, and the keys; returns reserved_words, words_sect_size and
    the sorted words list. -/
def read_file (data : List Nat) : Except String (Nat × Nat × List WordInfo) :=
  if data.length < 7 then .error "Unexpected EOF"
  else if readBytes data 0 7 ≠ magicBytes then
    .error "Incorrect magic bytes. File may be corrupted"
  else if data.length < 11 then .error "Unexpected EOF"
  else
    let rw := readU32 data 7
    if rw = 0 then .error "Read 0 reserved words. File may be corrupted"
    else if data.length < 15 then .error "Unexpected EOF"
    else
      let wss := readU32 data 11
      if wss = 0 then .error "Read 0 word section size. File may be corrupted"
      else if data.length < 19 then .error "Unexpected EOF"
      else
        let n := readU32 data 15
        if n > rw then
          .error "Number of words is greater than total reserved words. File may be corrupted"
        else if rw * 8 + n > data.length then
          .error "Reported indices + words section sizes is greater than file size. File may be corrupted"
        else
          match readIndsLoop data inds_section_offset rw with
          | .error e => .error e
          | .ok word_inds =>
            match readIndsLoop data (inds_section_offset + rw * 4) rw with
            | .error e => .error e
            | .ok def_inds =>
              if word_inds.length ≠ n ∨ def_inds.length ≠ n then
                .error "Incorrect number of valid indices. File may be corrupted"
              else
                let zipped := sortPairs (word_inds.zip def_inds)
                if adjDupFst zipped then
                  .error "Found repeated indices. File may be corrupted"
                else
                  match readWordsLoop data (words_section_offset rw) wss zipped with
                  | .error e => .error e
                  | .ok ws =>
                    let wsSorted := sortWord ws
                    if adjDup wsSorted then
                      .error "Found repeated words. File may be corrupted"
                    else .ok (rw, wss, wsSorted)

/-- Per-word pass of open over the parsed words (when deduplicate or
    check_defs): read each def header (0 size is corruption), feed
    existing_defs, and under check_defs recompute the payload hash and
    compare it with the stored one. -/
def openCheckLoop (data : List Nat) (dso : Nat) (dedup check : Bool) :
    List WordInfo → EdsMap → Except String EdsMap
  | [], eds => .ok eds
  | wi :: rest, eds =>
    match get_def_size_and_hash data wi.def_ind 0 dso with
    | .error e => .error e
    | .ok (size, hash) =>
      let eds2 := if dedup then edsPush eds size hash wi.def_ind else eds
      if check then
        match hash_existing_def data wi.def_ind size dso with
        | .error e => .error e
        | .ok (some h) =>
          if hash ≠ h then .error "Definition hash does not match. File may be corrupted"
          else openCheckLoop data dso dedup check rest eds2
        | .ok none => .error "Definition hash does not match. File may be corrupted"
      else openCheckLoop data dso dedup check rest eds2

/-- dictionary_file::open on an existing file (open_in + read_file + the
    deduplicate / check_defs loop). -/
def openDict (data : List Nat) (dedup check : Bool) : Except String DictFile :=
  match read_file data with
  | .error e => .error e
  | .ok (rw, wss, ws) =>
    match (if dedup ∨ check then
        openCheckLoop data (defs_section_offset rw wss) dedup check ws []
      else .ok []) with
    | .error e => .error e
    | .ok eds =>
      .ok { fileData := data, reserved_words := rw, words_sect_size := wss,
            words := ws, first_new_word := none, existing_defs := eds,
            do_dedup := dedup }

/-- Loop of the batch build tool main (save_words): per input line, fetch the
    definition over HTTP (fetch, none = non-200 response, the tool exits -1),
    transcode the JSON body to CBOR (transcode, out of scope per the spec),
    and add_word<false, true> the line as read; one flush at the end. -/
def batch_loop (fetch : List Nat → Option (List Nat))
    (transcode : List Nat → List Nat) :
    List (List Nat) → DictFile → Except String (Option DictFile)
  | [], s =>
    match flush s with
    | .error e => .error e
    | .ok p => .ok (some p.2)
  | w :: rest, s =>
    match fetch w with
    | none => .ok none
    | some body =>
      match add_word false true w (transcode body) s with
      | .error e => .error e
      | .ok (_, s2) => batch_loop fetch transcode rest s2

/-- The batch build tool main: fresh data.sdict (any existing file is removed
    first; the constructor defaults give deduplicate = true), then the line
    loop, then one flush. -/
def batch_tool (input : List (List Nat)) (fetch : List Nat → Option (List Nat))
    (transcode : List Nat → List Nat) : Except String (Option DictFile) :=
  batch_loop fetch transcode input (create_file true)

/-- One public mutating operation of the engine. -/
inductive DOp where
  | addw (fw sd : Bool) (w d : List Nat)
  | flushOp

/-- Run one operation, keeping only the resulting state. -/
def execOp : DOp → DictFile → Except String DictFile
  | .addw fw sd w d, s =>
    match add_word fw sd w d s with
    | .error e => .error e
    | .ok p => .ok p.2
  | .flushOp, s =>
    match flush s with
    | .error e => .error e
    | .ok p => .ok p.2

/-- States reachable from a freshly created dictionary file by successful
    operations. -/
inductive Reach (dedup : Bool) : DictFile → Prop
  | refl : Reach dedup (create_file dedup)
  | step {s s2 : DictFile} (op : DOp) : Reach dedup s → execOp op s = .ok s2 →
      Reach dedup s2

/-! ### Observation helpers and concrete executions used by the claims -/

/-- In-memory state with a stored word whose def offset is the uint32 -1
    sentinel (reachable only when the defs section reaches 4 GiB). -/
def c10sA : DictFile :=
  { fileData := [], reserved_words := 32, words_sect_size := 256,
    words := [⟨[97], u32m1⟩, ⟨[98], 5⟩], first_new_word := none,
    existing_defs := [], do_dedup := true }

/-- In-memory state with an ordinary def offset. -/
def c10sB : DictFile :=
  { fileData := [], reserved_words := 32, words_sect_size := 256,
    words := [⟨[97], 0⟩], first_new_word := none,
    existing_defs := [], do_dedup := true }

/-- A 275 byte file whose word index table holds the offset value 1 twice. -/
def dupWordIndFile : List Nat :=
  magicBytes ++ u32le 32 ++ u32le 256 ++ u32le 2
  ++ u32le 1 ++ u32le 1 ++ List.replicate (30 * 4) 0
  ++ u32le 1 ++ u32le 3 ++ List.replicate (30 * 4) 0

/-- State projection of an add_word / flush result. -/
def okSt : Except String (Bool × DictFile) → Option DictFile
  | .ok p => some p.2
  | .error _ => none

/-- Bool projection of an add_word / flush result. -/
def okBool : Except String (Bool × DictFile) → Option Bool
  | .ok p => some p.1
  | .error _ => none

/-- State projection of an open / rewrite result. -/
def okDict : Except String DictFile → Option DictFile
  | .ok d => some d
  | .error _ => none

/-- Error message projection. -/
def errStr : Except String DictFile → Option String
  | .error e => some e
  | .ok _ => none

/-- Successful-run projection of a batch tool result. -/
def okOptD : Except String (Option DictFile) → Option DictFile
  | .ok (some d) => some d
  | _ => none

/-- First key of the section-growth runs: 130 bytes. -/
def growKey1 : List Nat := List.replicate 130 97

/-- Second key of the section-growth runs: 130 bytes, larger than growKey1. -/
def growKey2 : List Nat := 98 :: List.replicate 129 97

/-- Two batched add_word calls whose keys total 262 packed bytes, then flush:
    the flush must grow words_sect_size from 256 to 512 and take the
    rewrite_file path.  dedup is the deduplicate flag of open. -/
def growRun (dedup : Bool) : Except String DictFile := do
  let (_, s1) ← add_word false false growKey1 [1] (create_file dedup)
  let (_, s2) ← add_word false false growKey2 [2] s1
  let (_, s3) ← flush s2
  .ok s3

/-- Batched insertion of the key [97, 0] (an embedded null byte), flush,
    then reopen of the written bytes. -/
def nullKeyRun : Except String DictFile := do
  let (_, s1) ← add_word false false [97, 0] [1] (create_file true)
  let (_, s2) ← flush s1
  openDict s2.fileData true true

/-- A 275 byte file: valid magic and header (reserved_words 32,
    words_sect_size 256, 0 words) and both index tables, but no words
    section at all. -/
def file275 : List Nat :=
  magicBytes ++ u32le 32 ++ u32le 256 ++ u32le 0 ++ List.replicate 256 0

/-- A file whose def index table holds the same nonzero offset twice: keys
    "a" and "b" both point at the single def record (payload [5]). -/
def dupDefFile : List Nat :=
  magicBytes ++ u32le 32 ++ u32le 256 ++ u32le 2
  ++ u32le 1 ++ u32le 3 ++ List.replicate (30 * 4) 0
  ++ u32le 1 ++ u32le 1 ++ List.replicate (30 * 4) 0
  ++ [97, 0, 98, 0] ++ List.replicate 252 0
  ++ u32le 1 ++ u64le (fnv1a [5] fnv_init) ++ [5]

/-- A 51 byte file (reserved_words 3, words_sect_size 8, one key "a") whose
    single def offset 100 points past the end of the file: the header size
    check 3*8+1 <= 51 passes, and the def header read hits EOF. -/
def c6File : List Nat :=
  magicBytes ++ u32le 3 ++ u32le 8 ++ u32le 1
  ++ u32le 1 ++ u32le 0 ++ u32le 0
  ++ u32le 101 ++ u32le 0 ++ u32le 0
  ++ [97, 0, 0, 0, 0, 0, 0, 0]

/-- A 19 byte file claiming 100 reserved words: the size check
    100 * 8 + 0 > 19 rejects it. -/
def c6BigFile : List Nat :=
  magicBytes ++ u32le 100 ++ u32le 1 ++ u32le 0

/-- Self-consistency of the definition record at offset di from the defs
    section start dso: the stored hash equals the FNV-1a-64 hash of the
    payload bytes reported by the stored size. -/
def goodDef (f : List Nat) (dso di : Nat) : Prop :=
  readU64 f (dso + di + 4)
    = fnv1a (readBytes f (dso + di + 12) (readU32 f (dso + di))) fnv_init

/-- The state after add_word("a", [1]) on a fresh non-dedup dictionary. -/
def c2s : DictFile :=
  { fileData := createData ++ u32le 1 ++ u64le (fnv1a [1] fnv_init) ++ [1],
    reserved_words := 32, words_sect_size := 256,
    words := [⟨[97], 0⟩], first_new_word := some 0,
    existing_defs := [], do_dedup := false }

/-! ### Lemmas about the byte-level primitives -/

theorem getD_range_map (g : Nat → Nat) (n i : Nat) :
    ((List.range n).map g).getD i 0 = if i < n then g i else 0 := by
  rcases lt_or_ge i n with h | h
  · rw [if_pos h, List.getD_eq_getElem _ _ (by simpa using h)]
    simp
  · rw [if_neg (by omega), List.getD_eq_default _ _ (by simpa using h)]

theorem length_writeAt (f : List Nat) (p : Nat) (bs : List Nat) :
    (writeAt f p bs).length = max f.length (p + bs.length) := by
  simp [writeAt]

theorem readByte_writeAt (f : List Nat) (p : Nat) (bs : List Nat) (i : Nat) :
    readByte (writeAt f p bs) i =
      if p ≤ i ∧ i < p + bs.length then bs.getD (i - p) 0 else readByte f i := by
  unfold writeAt readByte
  rw [getD_range_map]
  rcases lt_or_ge i (max f.length (p + bs.length)) with h | h
  · rw [if_pos h]
  · rw [if_neg (by omega), if_neg (by omega), List.getD_eq_default _ _ (by omega)]

theorem length_readBytes (f : List Nat) (p n : Nat) :
    (readBytes f p n).length = n := by
  simp [readBytes]

theorem getD_readBytes (f : List Nat) (p n i : Nat) :
    (readBytes f p n).getD i 0 = if i < n then readByte f (p + i) else 0 := by
  unfold readBytes
  exact getD_range_map _ n i

theorem readBytes_congr {f g : List Nat} {p q : Nat} (n : Nat)
    (h : ∀ i < n, readByte f (p + i) = readByte g (q + i)) :
    readBytes f p n = readBytes g q n := by
  unfold readBytes
  exact List.map_congr_left (by intro i hi; exact h i (List.mem_range.mp hi))

theorem readByte_append_left (a b : List Nat) (i : Nat) (h : i < a.length) :
    readByte (a ++ b) i = readByte a i := by
  unfold readByte
  rw [List.getD_append _ _ _ _ h]

theorem readByte_append_right (a b : List Nat) (i : Nat) (h : a.length ≤ i) :
    readByte (a ++ b) i = readByte b (i - a.length) := by
  unfold readByte
  rcases lt_or_ge i (a.length + b.length) with h2 | h2
  · rw [List.getD_eq_getElem _ _ (by simp; omega), List.getD_eq_getElem _ _ (by omega),
      List.getElem_append_right (by omega)]
  · rw [List.getD_eq_default _ _ (by simp; omega), List.getD_eq_default _ _ (by omega)]

theorem readBytes_append_right (a b : List Nat) (n : Nat) :
    readBytes (a ++ b) a.length n = readBytes b 0 n := by
  refine readBytes_congr n (fun i _ => ?_)
  rw [readByte_append_right a b _ (by omega)]
  congr 1
  omega

/-- A list of bytes read back whole is itself. -/
theorem readBytes_all (a : List Nat) : readBytes a 0 a.length = a := by
  apply List.ext_getElem
  · simp [length_readBytes]
  · intro i h1 h2
    rw [← List.getD_eq_getElem _ 0 h1, ← List.getD_eq_getElem _ 0 h2, getD_readBytes]
    rw [if_pos (by simpa using h2), readByte, Nat.zero_add]

theorem fromLE_u32le (n : Nat) : fromLE (u32le n) = n % 2 ^ 32 := by
  simp [u32le, fromLE]
  omega

theorem fromLE_u64le (n : Nat) : fromLE (u64le n) = n % 2 ^ 64 := by
  simp [u64le, fromLE]
  omega

/-! ### The key order: listLt is the lexicographic order on byte strings -/

theorem listLt_iff (a b : List Nat) : listLt a b = true ↔ a < b := by
  induction a generalizing b with
  | nil =>
    cases b with
    | nil =>
      simp only [listLt, Bool.false_eq_true, false_iff]
      intro h
      cases h
    | cons y ys =>
      simp only [listLt, true_iff]
      exact List.Lex.nil
  | cons x xs ih =>
    cases b with
    | nil =>
      simp only [listLt, Bool.false_eq_true, false_iff]
      intro h
      cases h
    | cons y ys =>
      simp only [listLt]
      rcases Nat.lt_trichotomy x y with hxy | hxy | hxy
      · simp only [if_pos hxy, true_iff]
        exact List.Lex.rel hxy
      · subst hxy
        rw [if_neg (lt_irrefl x), if_neg (lt_irrefl x), ih ys]
        constructor
        · exact fun h => List.Lex.cons h
        · intro h
          cases h with
          | cons h => exact h
          | rel h => exact absurd h (lt_irrefl x)
      · rw [if_neg (by omega), if_pos hxy]
        simp only [Bool.false_eq_true, false_iff]
        intro h
        cases h with
        | cons h2 => exact absurd hxy (lt_irrefl _)
        | rel h2 => omega

theorem listLt_false_iff (a b : List Nat) : listLt a b = false ↔ ¬ a < b := by
  rw [← listLt_iff]
  cases listLt a b <;> simp

theorem listLt_irrefl (a : List Nat) : listLt a a = false :=
  (listLt_false_iff a a).mpr (lt_irrefl a)

theorem listLt_asymm {a b : List Nat} (h : listLt a b = true) : listLt b a = false :=
  (listLt_false_iff b a).mpr (lt_asymm ((listLt_iff a b).mp h))

theorem listLt_trans {a b c : List Nat} (h1 : listLt a b = true) (h2 : listLt b c = true) :
    listLt a c = true :=
  (listLt_iff a c).mpr (lt_trans ((listLt_iff a b).mp h1) ((listLt_iff b c).mp h2))

theorem listLt_conn {a b : List Nat} (h1 : listLt a b = false) (h2 : listLt b a = false) :
    a = b :=
  le_antisymm (not_lt.mp ((listLt_false_iff b a).mp h2))
    (not_lt.mp ((listLt_false_iff a b).mp h1))

theorem listLt_lt_of_lt_of_nlt {a b c : List Nat} (h1 : listLt a b = true)
    (h2 : listLt c b = false) : listLt a c = true :=
  (listLt_iff a c).mpr
    (lt_of_lt_of_le ((listLt_iff a b).mp h1) (not_lt.mp ((listLt_false_iff c b).mp h2)))

theorem listLt_total (a b : List Nat) :
    listLt a b = true ∨ listLt b a = true ∨ a = b := by
  rcases lt_trichotomy a b with h | h | h
  · exact Or.inl ((listLt_iff a b).mpr h)
  · exact Or.inr (Or.inr h)
  · exact Or.inr (Or.inl ((listLt_iff b a).mpr h))

/-! ### Generic insertion sort and adjacent-find lemmas -/

theorem ordInsert_perm {α : Type} (lt : α → α → Bool) (x : α) (l : List α) :
    (ordInsert lt x l).Perm (x :: l) := by
  induction l with
  | nil => exact List.Perm.refl _
  | cons y ys ih =>
    unfold ordInsert
    by_cases h : lt x y = true
    · rw [if_pos h]
    · rw [if_neg h]
      exact (ih.cons y).trans (List.Perm.swap x y ys)

theorem ordSort_perm {α : Type} (lt : α → α → Bool) (l : List α) :
    (ordSort lt l).Perm l := by
  induction l with
  | nil => exact List.Perm.refl _
  | cons x xs ih =>
    exact (ordInsert_perm lt x (ordSort lt xs)).trans (ih.cons x)

theorem ordInsert_pairwise {α : Type} {lt : α → α → Bool}
    (hasym : ∀ {a b}, lt a b = true → lt b a = false)
    (htrans : ∀ {a b c}, lt a b = true → lt b c = true → lt a c = true)
    (x : α) {l : List α} (hl : l.Pairwise (fun a b => lt b a = false)) :
    (ordInsert lt x l).Pairwise (fun a b => lt b a = false) := by
  induction l with
  | nil => simp [ordInsert]
  | cons y ys ih =>
    rcases List.pairwise_cons.mp hl with ⟨hy, hys⟩
    unfold ordInsert
    by_cases h : lt x y = true
    · rw [if_pos h]
      refine List.pairwise_cons.mpr ⟨?_, hl⟩
      intro z hz
      rcases List.mem_cons.mp hz with rfl | hz
      · exact hasym h
      · by_contra hzx
        rw [Bool.not_eq_false] at hzx
        have h2 : lt z y = true := htrans hzx h
        simp [hy z hz] at h2
    · rw [if_neg h]
      refine List.pairwise_cons.mpr ⟨?_, ih hys⟩
      intro z hz
      have hz2 := (ordInsert_perm lt x ys).mem_iff.mp hz
      rcases List.mem_cons.mp hz2 with rfl | hz2
      · exact Bool.eq_false_iff.mpr h
      · exact hy z hz2

theorem ordSort_pairwise {α : Type} {lt : α → α → Bool}
    (hasym : ∀ {a b}, lt a b = true → lt b a = false)
    (htrans : ∀ {a b c}, lt a b = true → lt b c = true → lt a c = true)
    (l : List α) : (ordSort lt l).Pairwise (fun a b => lt b a = false) := by
  induction l with
  | nil => simp [ordSort]
  | cons x xs ih => exact @ordInsert_pairwise α lt hasym htrans x (ordSort lt xs) ih

theorem adjBy_false_of_nodup {α β : Type} {eqb : α → α → Bool} {key : α → β}
    (heqb : ∀ a b, eqb a b = true ↔ key a = key b) :
    ∀ {l : List α}, (l.map key).Nodup → adjBy eqb l = false
  | [], _ => rfl
  | [_], _ => rfl
  | x :: y :: rest, h => by
    rw [List.map_cons, List.nodup_cons] at h
    unfold adjBy
    rw [Bool.or_eq_false_iff]
    refine ⟨?_, adjBy_false_of_nodup heqb h.2⟩
    rw [Bool.eq_false_iff]
    intro he
    exact h.1 (by rw [List.map_cons, (heqb x y).mp he]; exact List.mem_cons_self _ _)

theorem strict_of_sorted_adjFalse {α β : Type} {lt eqb : α → α → Bool}
    {key : α → β}
    (heqb : ∀ a b, eqb a b = true ↔ key a = key b)
    (hconn : ∀ {a b}, lt a b = false → lt b a = false → key a = key b)
    (htrans : ∀ {a b c}, lt a b = true → lt b c = true → lt a c = true) :
    ∀ {l : List α}, l.Pairwise (fun a b => lt b a = false) →
      adjBy eqb l = false →
      l.Pairwise (fun a b => lt a b = true)
  | [], _, _ => List.Pairwise.nil
  | [x], _, _ => by simp
  | x :: y :: rest, hp, hadj => by
    unfold adjBy at hadj
    rw [Bool.or_eq_false_iff] at hadj
    obtain ⟨hxy, hadj2⟩ := hadj
    rcases List.pairwise_cons.mp hp with ⟨hx, hp2⟩
    have ht := @strict_of_sorted_adjFalse α β lt eqb key heqb hconn htrans (y :: rest) hp2 hadj2
    have hxylt : lt x y = true := by
      by_contra hc
      rw [Bool.not_eq_true] at hc
      exact (Bool.eq_false_iff.mp hxy)
        ((heqb x y).mpr (hconn hc (hx y (List.mem_cons_self y rest))))
    refine List.pairwise_cons.mpr ⟨?_, ht⟩
    intro z hz
    rcases List.mem_cons.mp hz with rfl | hz2
    · exact hxylt
    · rcases List.pairwise_cons.mp ht with ⟨hy2, _⟩
      exact htrans hxylt (hy2 z hz2)

theorem nodup_key_of_sorted_adjFalse {α β : Type} {lt eqb : α → α → Bool}
    {key : α → β}
    (heqb : ∀ a b, eqb a b = true ↔ key a = key b)
    (hconn : ∀ {a b}, lt a b = false → lt b a = false → key a = key b)
    (htrans : ∀ {a b c}, lt a b = true → lt b c = true → lt a c = true)
    (hcmp : ∀ {a b}, key a = key b → lt a b = false)
    {l : List α} (hsorted : l.Pairwise (fun a b => lt b a = false))
    (hadj : adjBy eqb l = false) :
    (l.map key).Nodup := by
  have hstrict := @strict_of_sorted_adjFalse α β lt eqb key heqb hconn htrans l hsorted hadj
  rw [List.Nodup, List.pairwise_map]
  refine hstrict.imp ?_
  intro a b h he
  rw [hcmp he] at h
  cases h

/-- Insertion at the head when the new element is smaller than the head. -/
theorem ordInsert_head {α : Type} {lt : α → α → Bool} {x y : α} {ys : List α}
    (h : lt x y = true) : ordInsert lt x (y :: ys) = x :: y :: ys := by
  unfold ordInsert
  rw [if_pos h]

/-- Insertion sort leaves a strictly sorted list unchanged. -/
theorem ordSort_eq_self_of_strict {α : Type} {lt : α → α → Bool} :
    ∀ {l : List α}, l.Pairwise (fun a b => lt a b = true) → ordSort lt l = l
  | [], _ => rfl
  | x :: xs, hp => by
    rcases List.pairwise_cons.mp hp with ⟨hx, hp2⟩
    unfold ordSort
    rw [ordSort_eq_self_of_strict hp2]
    cases xs with
    | nil => rfl
    | cons y ys => exact ordInsert_head (hx y (List.mem_cons_self y ys))

/-- Length of a find result, straight from the stored size field. -/
theorem find_map_length (d : DictFile) (k : List Nat) (h : find_def_ind d k ≠ u32m1) :
    (find d k).map List.length =
      some (readU32 d.fileData
        (defs_section_offset d.reserved_words d.words_sect_size + find_def_ind d k)) := by
  simp [find, read_def_whole, h, length_readBytes]

/-! ### Instantiated comparator facts and merge lemmas -/

theorem wLt_asymm : ∀ {a b : WordInfo}, wLt a b = true → wLt b a = false :=
  fun h => listLt_asymm h

theorem wLt_trans : ∀ {a b c : WordInfo}, wLt a b = true → wLt b c = true → wLt a c = true :=
  fun h1 h2 => listLt_trans h1 h2

theorem wLt_conn : ∀ {a b : WordInfo}, wLt a b = false → wLt b a = false → a.word = b.word :=
  fun h1 h2 => listLt_conn h1 h2

theorem wLt_of_word_eq : ∀ {a b : WordInfo}, a.word = b.word → wLt a b = false := by
  intro a b h
  unfold wLt
  rw [h]
  exact listLt_irrefl _

theorem listLt_le_lt_trans {a b c : List Nat} (h1 : listLt b a = false)
    (h2 : listLt b c = true) : listLt a c = true :=
  (listLt_iff a c).mpr
    (lt_of_le_of_lt (not_lt.mp ((listLt_false_iff b a).mp h1)) ((listLt_iff b c).mp h2))

theorem pLt_asymm : ∀ {a b : Nat × Nat}, pLt a b = true → pLt b a = false := by
  intro a b h
  simp only [pLt, decide_eq_true_eq] at h
  simp only [pLt, decide_eq_false_iff_not]
  omega

theorem pLt_trans : ∀ {a b c : Nat × Nat}, pLt a b = true → pLt b c = true → pLt a c = true := by
  intro a b c h1 h2
  simp only [pLt, decide_eq_true_eq] at *
  omega

theorem pLt_conn : ∀ {a b : Nat × Nat}, pLt a b = false → pLt b a = false → a.1 = b.1 := by
  intro a b h1 h2
  simp only [pLt, decide_eq_false_iff_not] at *
  omega

theorem pLt_of_fst_eq : ∀ {a b : Nat × Nat}, a.1 = b.1 → pLt a b = false := by
  intro a b h
  simp only [pLt, decide_eq_false_iff_not]
  omega

theorem sortWord_perm (l : List WordInfo) : (sortWord l).Perm l := ordSort_perm wLt l

theorem sortWord_sorted (l : List WordInfo) :
    (sortWord l).Pairwise (fun a b => wLt b a = false) :=
  @ordSort_pairwise WordInfo wLt wLt_asymm wLt_trans l

theorem sortPairs_perm (l : List (Nat × Nat)) : (sortPairs l).Perm l := ordSort_perm pLt l

theorem sortPairs_sorted (l : List (Nat × Nat)) :
    (sortPairs l).Pairwise (fun a b => pLt b a = false) :=
  @ordSort_pairwise (Nat × Nat) pLt pLt_asymm pLt_trans l

theorem adjDup_false_of_nodup {l : List WordInfo} (h : (l.map WordInfo.word).Nodup) :
    adjDup l = false := by
  unfold adjDup
  exact @adjBy_false_of_nodup WordInfo (List Nat) (fun a b => a.word == b.word)
    WordInfo.word (fun a b => by simp) l h

theorem sortWord_adjDup {l : List WordInfo} (h : (l.map WordInfo.word).Nodup) :
    adjDup (sortWord l) = false :=
  adjDup_false_of_nodup (((sortWord_perm l).map WordInfo.word).nodup_iff.mpr h)

theorem mergeWordF_perm :
    ∀ (fuel : Nat) (xs ys : List WordInfo), xs.length + ys.length ≤ fuel →
      (mergeWordF fuel xs ys).Perm (xs ++ ys)
  | 0, xs, ys, _ => List.Perm.refl _
  | _ + 1, [], ys, _ => by simp [mergeWordF]
  | _ + 1, _ :: _, [], _ => by simp [mergeWordF]
  | fuel + 1, x :: xs, y :: ys, h => by
    simp only [mergeWordF]
    by_cases hc : listLt y.word x.word = true
    · rw [if_pos hc]
      have ih := mergeWordF_perm fuel (x :: xs) ys (by simp at h ⊢; omega)
      exact (ih.cons y).trans List.perm_middle.symm
    · rw [if_neg hc]
      have ih := mergeWordF_perm fuel xs (y :: ys) (by simp at h ⊢; omega)
      exact ih.cons x

theorem mergeWord_perm (xs ys : List WordInfo) : (mergeWord xs ys).Perm (xs ++ ys) :=
  mergeWordF_perm _ xs ys (le_refl _)

theorem mergeWordF_sorted :
    ∀ (fuel : Nat) (xs ys : List WordInfo), xs.length + ys.length ≤ fuel →
      xs.Pairwise (fun a b => wLt b a = false) →
      ys.Pairwise (fun a b => wLt b a = false) →
      (mergeWordF fuel xs ys).Pairwise (fun a b => wLt b a = false)
  | 0, xs, ys, hf, _, _ => by
    have h1 : xs = [] := List.eq_nil_of_length_eq_zero (by omega)
    have h2 : ys = [] := List.eq_nil_of_length_eq_zero (by omega)
    subst h1; subst h2
    simp [mergeWordF]
  | _ + 1, [], ys, _, _, hys => by simpa [mergeWordF] using hys
  | _ + 1, x :: xs, [], _, hxs, _ => by simpa [mergeWordF] using hxs
  | fuel + 1, x :: xs, y :: ys, h, hxs, hys => by
    simp only [mergeWordF]
    rcases List.pairwise_cons.mp hxs with ⟨hx, hxs2⟩
    rcases List.pairwise_cons.mp hys with ⟨hy, hys2⟩
    by_cases hc : listLt y.word x.word = true
    · rw [if_pos hc]
      have hc2 : wLt y x = true := hc
      refine List.pairwise_cons.mpr ⟨?_, ?_⟩
      · intro z hz
        have hz2 := (mergeWordF_perm fuel (x :: xs) ys (by simp at h ⊢; omega)).mem_iff.mp hz
        rcases List.mem_append.mp hz2 with hz3 | hz3
        · rcases List.mem_cons.mp hz3 with rfl | hz4
          · exact wLt_asymm hc2
          · show wLt z y = false
            by_contra hzx
            rw [Bool.not_eq_false] at hzx
            have h5 : wLt z x = true := wLt_trans hzx hc2
            rw [hx z hz4] at h5
            exact Bool.false_ne_true h5
        · exact hy z hz3
      · exact mergeWordF_sorted fuel (x :: xs) ys (by simp at h ⊢; omega) hxs hys2
    · rw [if_neg hc]
      have hc2 : wLt y x = false := Bool.eq_false_iff.mpr hc
      refine List.pairwise_cons.mpr ⟨?_, ?_⟩
      · intro z hz
        have hz2 := (mergeWordF_perm fuel xs (y :: ys) (by simp at h ⊢; omega)).mem_iff.mp hz
        rcases List.mem_append.mp hz2 with hz3 | hz3
        · exact hx z hz3
        · rcases List.mem_cons.mp hz3 with rfl | hz4
          · exact hc2
          · show wLt z x = false
            by_contra hzx
            rw [Bool.not_eq_false] at hzx
            have h5 : wLt z y = true := listLt_lt_of_lt_of_nlt hzx hc2
            rw [hy z hz4] at h5
            exact Bool.false_ne_true h5
      · exact mergeWordF_sorted fuel xs (y :: ys) (by simp at h ⊢; omega) hxs2 hys

theorem mergeWord_sorted {xs ys : List WordInfo}
    (hxs : xs.Pairwise (fun a b => wLt b a = false))
    (hys : ys.Pairwise (fun a b => wLt b a = false)) :
    (mergeWord xs ys).Pairwise (fun a b => wLt b a = false) :=
  mergeWordF_sorted _ xs ys (le_refl _) hxs hys

/-! ### The binary search of find_def_ind -/

theorem lbAux_bounds (ws : List WordInfo) (w : List Nat) :
    ∀ (fuel first count : Nat), count ≤ fuel →
      first ≤ lbAux ws w fuel first count ∧ lbAux ws w fuel first count ≤ first + count
  | 0, first, count, hf => by
    simp [lbAux]
  | fuel + 1, first, count, hf => by
    by_cases hc : count = 0
    · subst hc
      simp [lbAux]
    · simp only [lbAux, if_neg hc]
      by_cases hP : listLt ((ws.getD (first + count / 2) default).word) w = true
      · rw [if_pos hP]
        have := lbAux_bounds ws w fuel (first + count / 2 + 1) (count - count / 2 - 1) (by omega)
        omega
      · rw [if_neg hP]
        have := lbAux_bounds ws w fuel first (count / 2) (by omega)
        omega

theorem lbAux_spec (ws : List WordInfo) (w : List Nat) :
    ∀ (fuel first count : Nat), count ≤ fuel →
      (∀ i j, first ≤ i → i ≤ j → j < first + count →
        listLt (ws.getD j default).word w = true →
        listLt (ws.getD i default).word w = true) →
      (∀ i, first ≤ i → i < lbAux ws w fuel first count →
        listLt (ws.getD i default).word w = true)
      ∧ (∀ i, lbAux ws w fuel first count ≤ i → i < first + count →
        listLt (ws.getD i default).word w = false)
  | 0, first, count, hf, _ => by
    have he : lbAux ws w 0 first count = first := rfl
    rw [he]
    constructor
    · intro i h1 h2
      omega
    · intro i h1 h2
      omega
  | fuel + 1, first, count, hf, hmono => by
    by_cases hc : count = 0
    · subst hc
      have he : lbAux ws w (fuel + 1) first 0 = first := by simp [lbAux]
      rw [he]
      constructor
      · intro i h1 h2
        omega
      · intro i h1 h2
        omega
    · simp only [lbAux, if_neg hc]
      by_cases hP : listLt ((ws.getD (first + count / 2) default).word) w = true
      · rw [if_pos hP]
        have hb := lbAux_bounds ws w fuel (first + count / 2 + 1) (count - count / 2 - 1)
          (by omega)
        have hrec := lbAux_spec ws w fuel (first + count / 2 + 1) (count - count / 2 - 1)
          (by omega)
          (by
            intro i j h1 h2 h3 h4
            exact hmono i j (by omega) h2 (by omega) h4)
        obtain ⟨h3, h4⟩ := hrec
        constructor
        · intro i hi1 hi2
          by_cases hi3 : i ≤ first + count / 2
          · exact hmono i (first + count / 2) hi1 hi3 (by omega) hP
          · exact h3 i (by omega) hi2
        · intro i hi1 hi2
          exact h4 i hi1 (by omega)
      · rw [if_neg hP]
        have hb := lbAux_bounds ws w fuel first (count / 2) (by omega)
        have hrec := lbAux_spec ws w fuel first (count / 2) (by omega)
          (by
            intro i j h1 h2 h3 h4
            exact hmono i j h1 h2 (by omega) h4)
        obtain ⟨h3, h4⟩ := hrec
        constructor
        · exact h3
        · intro i hi1 hi2
          by_cases hi3 : i < first + count / 2
          · exact h4 i hi1 hi3
          · by_contra hx
            rw [Bool.not_eq_false] at hx
            exact hP (hmono (first + count / 2) i (by omega) (by omega) hi2 hx)

/-! ### Characterization of find_def_ind on well-formed states -/

theorem find_def_ind_eq (s : DictFile) (w : List Nat) :
    find_def_ind s w =
      if lbAux s.words w (fnwEnd s) 0 (fnwEnd s) = fnwEnd s
          ∨ (s.words.getD (lbAux s.words w (fnwEnd s) 0 (fnwEnd s)) default).word ≠ w then
        if fnwEnd s = s.words.length then u32m1
        else
          match (s.words.drop (fnwEnd s)).find? (fun wi => wi.word == w) with
          | some wi => wi.def_ind
          | none => u32m1
      else (s.words.getD (lbAux s.words w (fnwEnd s) 0 (fnwEnd s)) default).def_ind := by
  unfold find_def_ind fnwEnd
  cases s.first_new_word <;> rfl

theorem find?_unique {α : Type} {p : α → Bool} {a : α} :
    ∀ {l : List α}, a ∈ l → p a = true → (∀ x ∈ l, p x = true → x = a) →
      l.find? p = some a
  | [], h, _, _ => absurd h (List.not_mem_nil a)
  | x :: xs, h, hp, huniq => by
    by_cases hx : p x = true
    · rw [List.find?_cons_of_pos _ hx]
      rw [huniq x (List.mem_cons_self x xs) hx]
    · rw [List.find?_cons_of_neg _ (by simpa using hx)]
      have h2 : a ∈ xs := by
        rcases List.mem_cons.mp h with rfl | h2
        · exact absurd hp hx
        · exact h2
      exact find?_unique h2 hp (fun y hy hpy => huniq y (List.mem_cons_of_mem x hy) hpy)

/-- A word absent from the in-memory list is reported with the -1 sentinel
    (no sortedness needed). -/
theorem find_def_ind_not_mem (s : DictFile) (w : List Nat)
    (hend : fnwEnd s ≤ s.words.length)
    (h : ∀ wi ∈ s.words, wi.word ≠ w) :
    find_def_ind s w = u32m1 := by
  rw [find_def_ind_eq]
  have hb := lbAux_bounds s.words w (fnwEnd s) 0 (fnwEnd s) (le_refl _)
  rw [if_pos ?hcond]
  case hcond =>
    by_cases hre : lbAux s.words w (fnwEnd s) 0 (fnwEnd s) = fnwEnd s
    · exact Or.inl hre
    · refine Or.inr ?_
      have hlt : lbAux s.words w (fnwEnd s) 0 (fnwEnd s) < s.words.length := by omega
      rw [List.getD_eq_getElem _ _ hlt]
      exact h _ (List.getElem_mem hlt)
  by_cases he : fnwEnd s = s.words.length
  · rw [if_pos he]
  · rw [if_neg he]
    have hnone : (s.words.drop (fnwEnd s)).find? (fun wi => wi.word == w) = none := by
      rw [List.find?_eq_none]
      intro x hx
      simp only [beq_iff_eq]
      exact h x (List.drop_subset _ _ hx)
    rw [hnone]

/-- A stored word is found and its def offset returned, on a state whose
    sorted region is sorted and whose keys are pairwise distinct. -/
theorem find_def_ind_mem (s : DictFile) (w : List Nat)
    (hend : fnwEnd s ≤ s.words.length)
    (hsort : (s.words.take (fnwEnd s)).Pairwise (fun a b => wLt b a = false))
    (hnd : (s.words.map WordInfo.word).Nodup)
    {wi : WordInfo} (hwi : wi ∈ s.words) (hw : wi.word = w) :
    find_def_ind s w = wi.def_ind := by
  have hinj := List.inj_on_of_nodup_map hnd
  have hndg : ∀ i j, (hi : i < s.words.length) → (hj : j < s.words.length) → i < j →
      s.words[i].word ≠ s.words[j].word := by
    intro i j hi hj hij
    have hp := List.pairwise_iff_getElem.mp hnd i j
      (by simpa using hi) (by simpa using hj) hij
    simpa using hp
  obtain ⟨k, hk, hkw⟩ := List.getElem_of_mem hwi
  have hb := lbAux_bounds s.words w (fnwEnd s) 0 (fnwEnd s) (le_refl _)
  rw [find_def_ind_eq]
  by_cases hke : k < fnwEnd s
  · -- the word sits in the sorted region: the binary search finds it
    have hmono : ∀ i j, 0 ≤ i → i ≤ j → j < 0 + fnwEnd s →
        listLt (s.words.getD j default).word w = true →
        listLt (s.words.getD i default).word w = true := by
      intro i j _ hij hj hP
      rcases Nat.eq_or_lt_of_le hij with rfl | hij2
      · exact hP
      · have hjl : j < s.words.length := by omega
        have hil : i < s.words.length := by omega
        rw [List.getD_eq_getElem _ _ hjl] at hP
        rw [List.getD_eq_getElem _ _ hil]
        have hpw := List.pairwise_iff_getElem.mp hsort i j
          (by rw [List.length_take]; omega) (by rw [List.length_take]; omega) hij2
        rw [List.getElem_take, List.getElem_take] at hpw
        exact listLt_le_lt_trans hpw hP
    obtain ⟨h3, h4⟩ := lbAux_spec s.words w (fnwEnd s) 0 (fnwEnd s) (le_refl _) hmono
    have hkP : listLt (s.words.getD k default).word w = false := by
      rw [List.getD_eq_getElem _ _ hk, hkw, hw]
      exact listLt_irrefl w
    have hrk : lbAux s.words w (fnwEnd s) 0 (fnwEnd s) ≤ k := by
      by_contra hx
      have h5 := h3 k (by omega) (by omega)
      rw [hkP] at h5
      exact Bool.false_ne_true h5
    have hrlt : lbAux s.words w (fnwEnd s) 0 (fnwEnd s) < s.words.length := by omega
    have hrP := h4 (lbAux s.words w (fnwEnd s) 0 (fnwEnd s)) (le_refl _) (by omega)
    rw [List.getD_eq_getElem _ _ hrlt] at hrP
    have hkword : (s.words[k]).word = w := by rw [hkw, hw]
    have hle : listLt w (s.words[lbAux s.words w (fnwEnd s) 0 (fnwEnd s)]).word = false := by
      rcases Nat.eq_or_lt_of_le hrk with heq | hlt2
      · have h6 : (s.words[lbAux s.words w (fnwEnd s) 0 (fnwEnd s)]).word = w := by
          simp_rw [heq]
          exact hkword
        rw [h6]
        exact listLt_irrefl w
      · have hpw := List.pairwise_iff_getElem.mp hsort
          (lbAux s.words w (fnwEnd s) 0 (fnwEnd s)) k
          (by rw [List.length_take]; omega) (by rw [List.length_take]; omega) hlt2
        simp only [List.getElem_take] at hpw
        nth_rewrite 1 [← hkword]
        exact hpw
    have hweq : (s.words[lbAux s.words w (fnwEnd s) 0 (fnwEnd s)]).word = w :=
      listLt_conn hrP hle
    rw [if_neg ?hcond]
    case hcond =>
      rw [List.getD_eq_getElem _ _ hrlt]
      push_neg
      refine ⟨by omega, hweq⟩
    rw [List.getD_eq_getElem _ _ hrlt]
    have he : s.words[lbAux s.words w (fnwEnd s) 0 (fnwEnd s)] = wi := by
      refine hinj (List.getElem_mem hrlt) hwi ?_
      rw [hweq, hw]
    rw [he]
  · -- the word sits in the unsorted tail: the linear search finds it
    rw [if_pos ?hcond2]
    case hcond2 =>
      by_cases hre : lbAux s.words w (fnwEnd s) 0 (fnwEnd s) = fnwEnd s
      · exact Or.inl hre
      · refine Or.inr ?_
        have hrl : lbAux s.words w (fnwEnd s) 0 (fnwEnd s) < s.words.length := by omega
        rw [List.getD_eq_getElem _ _ hrl]
        intro hweq
        refine hndg (lbAux s.words w (fnwEnd s) 0 (fnwEnd s)) k hrl hk (by omega) ?_
        rw [hweq, hkw, hw]
    rw [if_neg (by omega)]
    have hmem : wi ∈ s.words.drop (fnwEnd s) := by
      have hsplit : wi ∈ s.words.take (fnwEnd s) ++ s.words.drop (fnwEnd s) := by
        rw [List.take_append_drop]
        exact hwi
      rcases List.mem_append.mp hsplit with htk | hdr
      · exfalso
        obtain ⟨j, hj, hjw⟩ := List.getElem_of_mem htk
        rw [List.length_take] at hj
        have hjl : j < s.words.length := by omega
        rw [List.getElem_take] at hjw
        refine hndg j k hjl hk (by omega) ?_
        rw [hjw, hkw]
      · exact hdr
    have hfind : (s.words.drop (fnwEnd s)).find? (fun x => x.word == w) = some wi := by
      refine find?_unique hmem (by simp [hw]) ?_
      intro x hx hpx
      simp only [beq_iff_eq] at hpx
      refine hinj (List.drop_subset _ _ hx) hwi ?_
      rw [hpx, hw]
    rw [hfind]

/-! ### Claims C10 and C7 -/

/-- C10: find_def_ind returns the stored def offset, and contains / find
    compare it against the uint32 -1 sentinel.  On a well-formed in-memory
    state (sorted searched region, pairwise-distinct keys): a stored word
    whose def offset is 0xFFFFFFFF is reported absent by contains and find
    even though it is present, and when no stored def offset is 0xFFFFFFFF
    the two report presence exactly. -/
theorem C10_sentinel_collision (s : DictFile) (w : List Nat)
    (hend : fnwEnd s ≤ s.words.length)
    (hsort : (s.words.take (fnwEnd s)).Pairwise (fun a b => wLt b a = false))
    (hnd : (s.words.map WordInfo.word).Nodup) :
    (∀ wi ∈ s.words, wi.word = w → wi.def_ind = u32m1 →
      contains s w = false ∧ find s w = none)
    ∧ ((∀ wi ∈ s.words, wi.def_ind ≠ u32m1) →
      (contains s w = true ↔ w ∈ s.words.map WordInfo.word)
      ∧ ((find s w).isSome = true ↔ w ∈ s.words.map WordInfo.word)) := by
  constructor
  · intro wi hwi hww hdi
    have h := find_def_ind_mem s w hend hsort hnd hwi hww
    rw [hdi] at h
    constructor
    · simp [contains, h]
    · simp [find, h]
  · intro hdef
    have hiff : contains s w = true ↔ w ∈ s.words.map WordInfo.word := by
      constructor
      · intro hc
        by_contra hmem
        have hne : ∀ wi ∈ s.words, wi.word ≠ w := by
          intro wi hwi hww
          exact hmem (by rw [← hww]; exact List.mem_map_of_mem WordInfo.word hwi)
        have h := find_def_ind_not_mem s w hend hne
        simp [contains, h] at hc
      · intro hmem
        obtain ⟨wi, hwi, hww⟩ := List.mem_map.mp hmem
        have h := find_def_ind_mem s w hend hsort hnd hwi hww
        simp only [contains, h, bne_iff_ne, ne_eq, decide_eq_true_eq]
        exact hdef wi hwi
    refine ⟨hiff, ?_⟩
    rw [← hiff]
    unfold contains find
    by_cases h : find_def_ind s w = u32m1
    · simp [h]
    · simp [h]

/-- C10 witness: on c10sA the word "a" is stored with the sentinel offset and
    reported absent; on c10sB it is stored normally and reported present. -/
theorem C10_sentinel_collision_witness :
    (contains c10sA [97] = false ∧ find c10sA [97] = none)
    ∧ contains c10sB [97] = true := by
  constructor
  · exact (C10_sentinel_collision c10sA [97] (by decide) (by decide) (by decide)).1
      ⟨[97], u32m1⟩ (by decide) rfl rfl
  · exact (((C10_sentinel_collision c10sB [97] (by decide) (by decide) (by decide)).2
      (by decide)).1).mpr (by decide)

/-- C7: when open parses the index tables, a duplicated nonzero word offset
    is rejected as corruption (first conjunct, for every file that reaches
    the zipped duplicate check), while a duplicated nonzero def offset is
    accepted: dupDefFile opens successfully with both keys sharing def
    offset 0 (second conjunct). -/
theorem C7_dup_index_asymmetry :
    (∀ (data : List Nat) (word_inds def_inds : List Nat),
      19 ≤ data.length →
      readBytes data 0 7 = magicBytes →
      readU32 data 7 ≠ 0 →
      readU32 data 11 ≠ 0 →
      readU32 data 15 ≤ readU32 data 7 →
      readU32 data 7 * 8 + readU32 data 15 ≤ data.length →
      readIndsLoop data inds_section_offset (readU32 data 7) = .ok word_inds →
      readIndsLoop data (inds_section_offset + readU32 data 7 * 4) (readU32 data 7)
        = .ok def_inds →
      word_inds.length = readU32 data 15 →
      def_inds.length = readU32 data 15 →
      ¬ word_inds.Nodup →
      read_file data = .error "Found repeated indices. File may be corrupted")
    ∧ (okDict (openDict dupDefFile true true)).map
        (fun d => (num_words d, find d [97], find d [98],
          d.words.map (fun wi : WordInfo => wi.def_ind)))
      = some (2, some [5], some [5], [0, 0]) := by
  constructor
  · intro data word_inds def_inds hlen hm hrw hwss hn hsize hwi hdi hlw hld hdup
    simp only [read_file]
    rw [if_neg (by omega)]
    rw [if_neg (by simp [hm])]
    rw [if_neg (by omega)]
    rw [if_neg hrw]
    rw [if_neg (by omega)]
    rw [if_neg hwss]
    rw [if_neg (by omega)]
    rw [if_neg (by omega)]
    rw [if_neg (by omega)]
    rw [hwi, hdi]
    simp only []
    rw [if_neg (by omega)]
    rw [if_pos ?hdup2]
    case hdup2 =>
      by_contra hadj
      rw [Bool.not_eq_true] at hadj
      unfold adjDupFst at hadj
      have hsorted := sortPairs_sorted (word_inds.zip def_inds)
      have hnd2 := @nodup_key_of_sorted_adjFalse (Nat × Nat) Nat pLt
        (fun x y => x.1 == y.1) Prod.fst (fun a b => by simp)
        (fun {a b} h1 h2 => pLt_conn h1 h2) (fun {a b c} h1 h2 => pLt_trans h1 h2)
        (fun {a b} h => pLt_of_fst_eq h) (sortPairs (word_inds.zip def_inds))
        hsorted hadj
      have hperm := (sortPairs_perm (word_inds.zip def_inds)).map Prod.fst
      have hnd3 : ((word_inds.zip def_inds).map Prod.fst).Nodup :=
        hperm.nodup_iff.mp hnd2
      rw [List.map_fst_zip _ _ (by omega)] at hnd3
      exact hdup hnd3
  · decide

/-- C7 witness: a concrete 275 byte file whose word index table repeats the
    offset value 1 is rejected with the repeated-indices corruption error. -/
theorem C7_dup_index_asymmetry_witness :
    read_file dupWordIndFile = .error "Found repeated indices. File may be corrupted" :=
  C7_dup_index_asymmetry.1 dupWordIndFile [0, 0] [0, 2] (by decide) (by decide)
    (by decide) (by decide) (by decide) (by decide) rfl rfl
    (by decide) (by decide) (by decide)

/-! ### Growth arithmetic and size bookkeeping (claim C8) -/

theorem growPow2F_le : ∀ (fuel x t : Nat), x ≤ growPow2F fuel x t
  | 0, x, t => le_refl x
  | fuel + 1, x, t => by
    unfold growPow2F
    split
    · exact le_trans (by omega) (growPow2F_le fuel (x * 2) t)
    · exact le_refl x

theorem growPow2_le (x t : Nat) : x ≤ growPow2 x t := growPow2F_le t x t

theorem growPow2F_pow : ∀ (fuel x t : Nat), ∃ k, growPow2F fuel x t = x * 2 ^ k
  | 0, x, t => ⟨0, by simp [growPow2F]⟩
  | fuel + 1, x, t => by
    unfold growPow2F
    split
    · obtain ⟨k, hk⟩ := growPow2F_pow fuel (x * 2) t
      exact ⟨k + 1, by rw [hk]; ring⟩
    · exact ⟨0, by simp⟩

theorem growPow2_pow (x t : Nat) : ∃ k, growPow2 x t = x * 2 ^ k := growPow2F_pow t x t

theorem growPow2F_ge : ∀ (fuel x t : Nat), 1 ≤ x → t ≤ x + fuel →
    t ≤ growPow2F fuel x t
  | 0, x, t, _, hf => by
    unfold growPow2F
    omega
  | fuel + 1, x, t, hx, hf => by
    unfold growPow2F
    split
    · exact growPow2F_ge fuel (x * 2) t (by omega) (by omega)
    · omega

theorem growPow2_ge (x t : Nat) (hx : 1 ≤ x) : t ≤ growPow2 x t :=
  growPow2F_ge t x t hx (by omega)

theorem growPow2F_min : ∀ (fuel x t y : Nat), x ≤ y → t ≤ y →
    (∃ j, y = x * 2 ^ j) → growPow2F fuel x t ≤ y
  | 0, x, t, y, hxy, _, _ => by
    unfold growPow2F
    exact hxy
  | fuel + 1, x, t, y, hxy, hty, hdvd => by
    unfold growPow2F
    split
    · obtain ⟨j, hj⟩ := hdvd
      cases j with
      | zero => simp at hj; omega
      | succ j =>
        refine growPow2F_min fuel (x * 2) t y ?_ hty ⟨j, by rw [hj, pow_succ]; ring⟩
        have h2 : 1 ≤ 2 ^ j := Nat.one_le_two_pow
        calc x * 2 ≤ x * 2 * 2 ^ j := Nat.le_mul_of_pos_right _ (by omega)
        _ = x * 2 ^ (j + 1) := by rw [pow_succ]; ring
        _ = y := hj.symm
    · exact hxy

theorem growPow2_min (x t y : Nat) (hxy : x ≤ y) (hty : t ≤ y)
    (hdvd : ∃ j, y = x * 2 ^ j) : growPow2 x t ≤ y :=
  growPow2F_min t x t y hxy hty hdvd

theorem growPow2_id (x t : Nat) (h : ¬ x < t) : growPow2 x t = x := by
  cases t with
  | zero => rfl
  | succ t =>
    unfold growPow2 growPow2F
    rw [if_neg h]

theorem sort_words_perm {ws : List WordInfo} {fnw : Nat} {l : List WordInfo}
    (h : sort_words ws fnw = .ok l) : l.Perm ws := by
  simp only [sort_words] at h
  split at h
  · cases h
  · rw [Except.ok.injEq] at h
    subst h
    refine (mergeWord_perm _ _).trans ?_
    refine (List.Perm.append_left _ (sortWord_perm _)).trans ?_
    rw [List.take_append_drop]

theorem sort_words_sorted {ws : List WordInfo} {fnw : Nat} {l : List WordInfo}
    (h : sort_words ws fnw = .ok l)
    (hpre : (ws.take fnw).Pairwise (fun a b => wLt b a = false)) :
    l.Pairwise (fun a b => wLt b a = false) := by
  simp only [sort_words] at h
  split at h
  · cases h
  · rw [Except.ok.injEq] at h
    subst h
    exact mergeWord_sorted hpre (sortWord_sorted _)

theorem rw_loop_words {fOld : List Nat} {dedup : Bool} {dsoOld dsoNew : Nat} :
    ∀ {ws : List WordInfo} {f2 : List Nat} {eds : EdsMap} {acc : List WordInfo}
      {r : List Nat × EdsMap × List WordInfo},
      rw_loop fOld dedup dsoOld dsoNew ws f2 eds acc = .ok r →
      r.2.2.map WordInfo.word = acc.map WordInfo.word ++ ws.map WordInfo.word := by
  intro ws
  induction ws with
  | nil =>
    intro f2 eds acc r h
    unfold rw_loop at h
    rw [Except.ok.injEq] at h
    subst h
    simp
  | cons wi rest ih =>
    intro f2 eds acc r h
    simp only [rw_loop] at h
    repeat' split at h
    all_goals first
    | (rw [ih h]; simp)
    | simp at h

theorem rewrite_file_fields {old_rw old_wss : Nat} {s s3 : DictFile}
    (h : rewrite_file old_rw old_wss s = .ok s3) :
    s3.reserved_words = s.reserved_words ∧ s3.words_sect_size = s.words_sect_size
    ∧ s3.first_new_word = s.first_new_word ∧ s3.do_dedup = s.do_dedup
    ∧ s3.words.map WordInfo.word = s.words.map WordInfo.word := by
  simp only [rewrite_file] at h
  repeat' split at h
  all_goals first
  | (rw [Except.ok.injEq] at h
     subst h
     rename_i heq
     refine ⟨rfl, rfl, rfl, rfl, ?_⟩
     have h2 := rw_loop_words heq
     simpa using h2)
  | simp at h

theorem take_drop_sum (ws : List WordInfo) (fnw : Nat) :
    ((ws.drop fnw).map wordLen1).sum + ((ws.take fnw).map wordLen1).sum
      = (ws.map wordLen1).sum := by
  conv_rhs => rw [← List.take_append_drop fnw ws]
  rw [List.map_append, List.sum_append]
  omega

/-- Size behaviour of flush: either the fast (or empty) path leaves
    reserved_words and words_sect_size unchanged, or the rewrite path sets
    them to the doubled values; the multiset of stored keys is preserved. -/
theorem flush_sizes {s : DictFile} {b : Bool} {s2 : DictFile}
    (h : flush s = .ok (b, s2)) :
    (s2.reserved_words = s.reserved_words ∧ s2.words_sect_size = s.words_sect_size
      ∧ (s2.words.map WordInfo.word).Perm (s.words.map WordInfo.word))
    ∨ (s2.reserved_words = growPow2 s.reserved_words s.words.length
        ∧ s2.words_sect_size = growPow2 s.words_sect_size ((s.words.map wordLen1).sum)
        ∧ (s2.words.map WordInfo.word).Perm (s.words.map WordInfo.word)) := by
  simp only [flush] at h
  split at h
  · rw [Except.ok.injEq, Prod.mk.injEq] at h
    obtain ⟨hb, hs⟩ := h
    subst hs
    left
    exact ⟨rfl, rfl, List.Perm.refl _⟩
  · rename_i fnw hfnw
    rw [take_drop_sum s.words fnw] at h
    split at h
    · split at h
      · simp at h
      · rename_i sorted hsort
        split at h
        · simp at h
        · rename_i s3 hrw
          rw [Except.ok.injEq, Prod.mk.injEq] at h
          obtain ⟨hb, hs⟩ := h
          subst hs
          right
          obtain ⟨hf1, hf2, _, _, hf5⟩ := rewrite_file_fields hrw
          have hperm := sort_words_perm hsort
          have hlen : sorted.length = s.words.length := hperm.length_eq
          have h1 : s3.reserved_words = growPow2 s.reserved_words sorted.length := hf1
          have h2 : s3.words_sect_size
              = growPow2 s.words_sect_size ((s.words.map wordLen1).sum) := hf2
          have h5 : s3.words.map WordInfo.word = sorted.map WordInfo.word := hf5
          refine ⟨h1.trans (congrArg (fun t => growPow2 s.reserved_words t) hlen), h2, ?_⟩
          rw [h5]
          exact hperm.map WordInfo.word
    · split at h
      · simp at h
      · rename_i sorted hsort
        rw [Except.ok.injEq, Prod.mk.injEq] at h
        obtain ⟨hb, hs⟩ := h
        subst hs
        left
        exact ⟨rfl, rfl, (sort_words_perm hsort).map WordInfo.word⟩

/-- add_word either leaves the state sizes unchanged or ends in a flush of an
    intermediate state with the same sizes. -/
theorem add_word_sizes {fw sd : Bool} {w d : List Nat} {s : DictFile} {b : Bool}
    {s2 : DictFile} (h : add_word fw sd w d s = .ok (b, s2)) :
    (s2.reserved_words = s.reserved_words ∧ s2.words_sect_size = s.words_sect_size)
    ∨ (∃ sMid b2, flush sMid = .ok (b2, s2)
        ∧ sMid.reserved_words = s.reserved_words
        ∧ sMid.words_sect_size = s.words_sect_size) := by
  simp only [add_word] at h
  repeat' split at h
  all_goals first
  | (rw [Except.ok.injEq, Prod.mk.injEq] at h
     obtain ⟨hb, hs⟩ := h
     subst hs
     left
     exact ⟨rfl, rfl⟩)
  | (rw [Except.ok.injEq, Prod.mk.injEq] at h
     obtain ⟨hb, hs⟩ := h
     subst hs
     right
     rename_i heq
     exact ⟨_, _, heq, rfl, rfl⟩)
  | simp at h

theorem execOp_pow {op : DOp} {s s2 : DictFile} (h : execOp op s = .ok s2) :
    (∃ k, s2.reserved_words = s.reserved_words * 2 ^ k)
    ∧ (∃ k, s2.words_sect_size = s.words_sect_size * 2 ^ k) := by
  cases op with
  | addw fw sd w d =>
    simp only [execOp] at h
    split at h
    · simp at h
    · rename_i p heq
      rw [Except.ok.injEq] at h
      subst h
      have heq2 : add_word fw sd w d s = .ok (p.1, p.2) := heq
      rcases add_word_sizes heq2 with ⟨h1, h2⟩ | ⟨sMid, b2, hfl, h1, h2⟩
      · exact ⟨⟨0, by simp [h1]⟩, ⟨0, by simp [h2]⟩⟩
      · rcases flush_sizes hfl with ⟨g1, g2, _⟩ | ⟨g1, g2, _⟩
        · exact ⟨⟨0, by simp [g1, h1]⟩, ⟨0, by simp [g2, h2]⟩⟩
        · obtain ⟨k1, hk1⟩ := growPow2_pow sMid.reserved_words sMid.words.length
          obtain ⟨k2, hk2⟩ := growPow2_pow sMid.words_sect_size
            ((sMid.words.map wordLen1).sum)
          exact ⟨⟨k1, by rw [g1, hk1, h1]⟩, ⟨k2, by rw [g2, hk2, h2]⟩⟩
  | flushOp =>
    simp only [execOp] at h
    split at h
    · simp at h
    · rename_i p heq
      rw [Except.ok.injEq] at h
      subst h
      have heq2 : flush s = .ok (p.1, p.2) := heq
      rcases flush_sizes heq2 with ⟨g1, g2, _⟩ | ⟨g1, g2, _⟩
      · exact ⟨⟨0, by simp [g1]⟩, ⟨0, by simp [g2]⟩⟩
      · obtain ⟨k1, hk1⟩ := growPow2_pow s.reserved_words s.words.length
        obtain ⟨k2, hk2⟩ := growPow2_pow s.words_sect_size ((s.words.map wordLen1).sum)
        exact ⟨⟨k1, by rw [g1, hk1]⟩, ⟨k2, by rw [g2, hk2]⟩⟩

theorem execOp_mono {op : DOp} {s s2 : DictFile} (h : execOp op s = .ok s2) :
    s.reserved_words ≤ s2.reserved_words ∧ s.words_sect_size ≤ s2.words_sect_size := by
  obtain ⟨⟨k1, hk1⟩, ⟨k2, hk2⟩⟩ := execOp_pow h
  constructor
  · rw [hk1]
    exact Nat.le_mul_of_pos_right _ (Nat.pow_pos (by norm_num))
  · rw [hk2]
    exact Nat.le_mul_of_pos_right _ (Nat.pow_pos (by norm_num))

theorem reach_pow {dedup : Bool} {s : DictFile} (h : Reach dedup s) :
    (∃ a, s.reserved_words = 32 * 2 ^ a) ∧ (∃ a, s.words_sect_size = 256 * 2 ^ a) := by
  induction h with
  | refl => exact ⟨⟨0, by simp [create_file]⟩, ⟨0, by simp [create_file]⟩⟩
  | step op hr hstep ih =>
    obtain ⟨⟨a, ha⟩, ⟨c, hc⟩⟩ := ih
    obtain ⟨⟨k1, hk1⟩, ⟨k2, hk2⟩⟩ := execOp_pow hstep
    exact ⟨⟨a + k1, by rw [hk1, ha, pow_add, mul_assoc]⟩,
           ⟨c + k2, by rw [hk2, hc, pow_add, mul_assoc]⟩⟩

theorem map_wordLen1 (l : List WordInfo) :
    (l.map wordLen1).sum = ((l.map WordInfo.word).map (fun w => w.length + 1)).sum := by
  rw [List.map_map]
  rfl

theorem pow2_between {x y : Nat} (hx : ∃ a, x = 2 ^ a) (hy : ∃ m, y = 2 ^ m)
    (hxy : x < y) : ∃ j, y = x * 2 ^ j := by
  obtain ⟨a, rfl⟩ := hx
  obtain ⟨m, rfl⟩ := hy
  have ham : a < m := by
    by_contra hcon
    push_neg at hcon
    exact absurd hxy (not_lt.mpr (Nat.pow_le_pow_right one_le_two hcon))
  refine ⟨m - a, ?_⟩
  rw [← pow_add]
  congr 1
  omega

theorem grow_min_aux {x t y : Nat} (hxp : ∃ a, x = 2 ^ a) (hgrow : growPow2 x t ≠ x)
    (hy : ∃ m, y = 2 ^ m) (hty : t ≤ y) : growPow2 x t ≤ y := by
  have hxt : x < t := by
    by_contra hcon
    exact hgrow (growPow2_id x t hcon)
  have hxy : x < y := lt_of_lt_of_le hxt hty
  exact growPow2_min x t y (le_of_lt hxy) hty (pow2_between hxp hy hxy)

/-- C8: every state reachable by successful operations from a fresh file has
    reserved_words a power of two at least the initial 32 and words_sect_size
    a power of two at least the initial 256; no successful operation decreases
    either; and when a successful flush changes reserved_words
    (resp. words_sect_size) the new value is the smallest power of two at
    least the number of stored keys (resp. the total packed-key byte length,
    one null terminator per key included). -/
theorem C8_pow2_growth (dedup : Bool) :
    (∀ s, Reach dedup s →
      ((∃ a, s.reserved_words = 2 ^ a) ∧ 32 ≤ s.reserved_words)
      ∧ ((∃ a, s.words_sect_size = 2 ^ a) ∧ 256 ≤ s.words_sect_size))
    ∧ (∀ op s s2, execOp op s = .ok s2 →
        s.reserved_words ≤ s2.reserved_words ∧ s.words_sect_size ≤ s2.words_sect_size)
    ∧ (∀ s b s2, Reach dedup s → flush s = .ok (b, s2) →
        (s2.reserved_words ≠ s.reserved_words →
          s2.words.length ≤ s2.reserved_words
          ∧ ∀ y, (∃ m, y = 2 ^ m) → s2.words.length ≤ y → s2.reserved_words ≤ y)
        ∧ (s2.words_sect_size ≠ s.words_sect_size →
          (s2.words.map wordLen1).sum ≤ s2.words_sect_size
          ∧ ∀ y, (∃ m, y = 2 ^ m) → (s2.words.map wordLen1).sum ≤ y →
            s2.words_sect_size ≤ y)) := by
  refine ⟨?_, ?_, ?_⟩
  · intro s hr
    obtain ⟨⟨a, ha⟩, ⟨c, hc⟩⟩ := reach_pow hr
    refine ⟨⟨⟨5 + a, by rw [ha, pow_add]; norm_num⟩, ?_⟩,
            ⟨⟨8 + c, by rw [hc, pow_add]; norm_num⟩, ?_⟩⟩
    · rw [ha]
      exact Nat.le_mul_of_pos_right _ (Nat.pow_pos (by norm_num))
    · rw [hc]
      exact Nat.le_mul_of_pos_right _ (Nat.pow_pos (by norm_num))
  · intro op s s2 h
    exact execOp_mono h
  · intro s b s2 hreach hfl
    obtain ⟨⟨a, ha⟩, ⟨c, hc⟩⟩ := reach_pow hreach
    rcases flush_sizes hfl with ⟨g1, g2, gp⟩ | ⟨g1, g2, gp⟩
    · exact ⟨fun hne => absurd g1 hne, fun hne => absurd g2 hne⟩
    · have hlen : s2.words.length = s.words.length := by
        have h2 := gp.length_eq
        simpa using h2
      have hsum : (s2.words.map wordLen1).sum = (s.words.map wordLen1).sum := by
        rw [map_wordLen1, map_wordLen1]
        exact (gp.map _).sum_eq
      constructor
      · intro hne
        have hgrow : growPow2 s.reserved_words s.words.length ≠ s.reserved_words :=
          fun hcon => hne (g1.trans hcon)
        have hx1 : 1 ≤ s.reserved_words := by
          have h2 : 0 < 2 ^ a := Nat.pow_pos (by norm_num)
          omega
        constructor
        · rw [hlen, g1]
          exact growPow2_ge _ _ hx1
        · intro y hy hcov
          rw [hlen] at hcov
          rw [g1]
          exact grow_min_aux ⟨5 + a, by rw [ha, pow_add]; norm_num⟩ hgrow hy hcov
      · intro hne
        have hgrow : growPow2 s.words_sect_size ((s.words.map wordLen1).sum)
            ≠ s.words_sect_size := fun hcon => hne (g2.trans hcon)
        have hx1 : 1 ≤ s.words_sect_size := by
          have h2 : 0 < 2 ^ c := Nat.pow_pos (by norm_num)
          omega
        constructor
        · rw [hsum, g2]
          exact growPow2_ge _ _ hx1
        · intro y hy hcov
          rw [hsum] at hcov
          rw [g2]
          exact grow_min_aux ⟨8 + c, by rw [hc, pow_add]; norm_num⟩ hgrow hy hcov

theorem C8_pow2_growth_witness :
    (((∃ a, (create_file true).reserved_words = 2 ^ a)
        ∧ 32 ≤ (create_file true).reserved_words)
      ∧ ((∃ a, (create_file true).words_sect_size = 2 ^ a)
        ∧ 256 ≤ (create_file true).words_sect_size))
    ∧ (create_file true).reserved_words ≤ (create_file true).reserved_words := by
  refine ⟨(C8_pow2_growth true).1 (create_file true) Reach.refl, ?_⟩
  exact ((C8_pow2_growth true).2.1 DOp.flushOp (create_file true) (create_file true) rfl).1

/-- C6: the only size validation of open is reserved_words * 8 + num_words
    against the file length: whenever a syntactically well-headed file fails
    it, open reports the size corruption error (first conjunct); a file whose
    def offset points past the end of the file passes that check and open
    instead fails with the plain Unexpected EOF I/O error when the def header
    read runs past the end (second conjunct; c6File passes read_file and dies
    in the per-word def scan). -/
theorem C6_size_check_only :
    (∀ data : List Nat,
      19 ≤ data.length →
      readBytes data 0 7 = magicBytes →
      readU32 data 7 ≠ 0 →
      readU32 data 11 ≠ 0 →
      readU32 data 15 ≤ readU32 data 7 →
      readU32 data 7 * 8 + readU32 data 15 > data.length →
      read_file data = .error
        "Reported indices + words section sizes is greater than file size. File may be corrupted")
    ∧ openDict c6File true true = .error "Unexpected EOF" := by
  constructor
  · intro data hlen hm hrw hwss hn hsize
    simp only [read_file]
    rw [if_neg (by omega)]
    rw [if_neg (by simp [hm])]
    rw [if_neg (by omega)]
    rw [if_neg hrw]
    rw [if_neg (by omega)]
    rw [if_neg hwss]
    rw [if_neg (by omega)]
    rw [if_neg (by omega)]
    rw [if_pos (by omega)]
  · rfl

/-- C6 witness: a 19 byte header-only file claiming 100 reserved words is
    rejected by the size check. -/
theorem C6_size_check_only_witness :
    read_file c6BigFile = .error
      "Reported indices + words section sizes is greater than file size. File may be corrupted" :=
  C6_size_check_only.1 c6BigFile (by decide) (by decide) (by decide) (by decide)
    (by decide) (by decide)

/-! ### Reading appended records back -/

theorem readBytes_append_shift (a b : List Nat) (q pos n : Nat)
    (hpos : pos = a.length + q) : readBytes (a ++ b) pos n = readBytes b q n := by
  refine readBytes_congr n (fun i _ => ?_)
  rw [readByte_append_right a b _ (by omega)]
  congr 1
  omega

theorem readBytes_append_pre (a b : List Nat) : readBytes (a ++ b) 0 a.length = a := by
  have h : readBytes (a ++ b) 0 a.length = readBytes a 0 a.length :=
    readBytes_congr _ (fun i hi => by
      simp only [Nat.zero_add]
      rw [readByte_append_left a b i hi])
  rw [h, readBytes_all]

theorem readBytes_zero (f : List Nat) (p : Nat) : readBytes f p 0 = [] := by
  simp [readBytes]

theorem fnv1a_lt (d : List Nat) : ∀ init, init < 2 ^ 64 → fnv1a d init < 2 ^ 64 := by
  induction d with
  | nil =>
    intro init h
    simpa [fnv1a] using h
  | cons b bs ih =>
    intro init h
    have h2 : fnv1a (b :: bs) init
        = fnv1a bs (((init ^^^ b) * 0x100000001b3) % 2 ^ 64) := by
      simp [fnv1a]
    rw [h2]
    exact ih _ (Nat.mod_lt _ (by norm_num))

/-- Reading back the header and payload of a record appended at the end of
    the file. -/
theorem record_reads (f p : List Nat) (n h : Nat) :
    readU32 (f ++ u32le n ++ u64le h ++ p) f.length = n % 2 ^ 32
    ∧ readU64 (f ++ u32le n ++ u64le h ++ p) (f.length + 4) = h % 2 ^ 64
    ∧ (p.length = n → readBytes (f ++ u32le n ++ u64le h ++ p) (f.length + 12) n = p) := by
  simp only [List.append_assoc]
  refine ⟨?_, ?_, ?_⟩
  · unfold readU32
    rw [readBytes_append_shift f _ 0 f.length 4 (by omega)]
    rw [show (4 : Nat) = (u32le n).length from by simp [u32le]]
    rw [readBytes_append_pre, fromLE_u32le]
  · unfold readU64
    rw [readBytes_append_shift f _ 4 (f.length + 4) 8 (by omega)]
    rw [readBytes_append_shift (u32le n) _ 0 4 8 (by simp [u32le])]
    rw [show (8 : Nat) = (u64le h).length from by simp [u64le]]
    rw [readBytes_append_pre, fromLE_u64le]
  · intro hp
    rw [readBytes_append_shift f _ 12 (f.length + 12) n (by omega)]
    rw [readBytes_append_shift (u32le n) _ 8 12 n (by simp [u32le])]
    rw [readBytes_append_shift (u64le h) p 0 8 n (by simp [u64le])]
    rw [← hp, readBytes_all]

/-- The miss path of add_word without flushing: the record
    {size, hash, payload} is appended at the end of the file and the word is
    appended to the in-memory list with the truncated end-of-file offset. -/
theorem add_word_append (sd : Bool) (k d : List Nat) (s : DictFile)
    (hnc : ¬ (sd = false ∧ find_def_ind s k ≠ u32m1))
    (hge : (if s.do_dedup = true then get_existing_def_ind s d
      else (Except.ok none : Except String (Option Nat))) = .ok none)
    (hfit : defs_section_offset s.reserved_words s.words_sect_size
      ≤ s.fileData.length) :
    add_word false sd k d s = .ok (true, { s with
      first_new_word := some (s.first_new_word.getD s.words.length),
      words := s.words ++ [⟨k, (s.fileData.length
        - defs_section_offset s.reserved_words s.words_sect_size) % 2 ^ 32⟩],
      existing_defs := if s.do_dedup then edsPush s.existing_defs
        (d.length % 2 ^ 32) (fnv1a d fnv_init)
        ((s.fileData.length
          - defs_section_offset s.reserved_words s.words_sect_size) % 2 ^ 32)
        else s.existing_defs,
      fileData := s.fileData ++ u32le d.length ++ u64le (fnv1a d fnv_init) ++ d }) := by
  simp only [add_word]
  rw [if_neg hnc]
  rw [show (if ({ s with first_new_word := some (s.first_new_word.getD s.words.length) }
        : DictFile).do_dedup = true then get_existing_def_ind
          { s with first_new_word := some (s.first_new_word.getD s.words.length) } d
        else (Except.ok none : Except String (Option Nat))) = Except.ok none from hge]
  have hfit2 : ¬ (({ s with first_new_word := some (s.first_new_word.getD s.words.length) } : DictFile).fileData.length < defs_section_offset ({ s with first_new_word := some (s.first_new_word.getD s.words.length) } : DictFile).reserved_words ({ s with first_new_word := some (s.first_new_word.getD s.words.length) } : DictFile).words_sect_size) := not_lt.mpr hfit
  rw [if_neg hfit2]
  rfl

/-- find_def_ind after appending one fresh word: the tail scan returns its
    offset. -/
theorem find_def_ind_append {s s2 : DictFile} {k : List Nat} {di : Nat}
    (hw : s2.words = s.words ++ [⟨k, di⟩])
    (hf : s2.first_new_word = some (s.first_new_word.getD s.words.length))
    (hend : fnwEnd s ≤ s.words.length)
    (hsort : (s.words.take (fnwEnd s)).Pairwise (fun a b => wLt b a = false))
    (hnd : (s.words.map WordInfo.word).Nodup)
    (hfresh : ∀ wi ∈ s.words, wi.word ≠ k) :
    find_def_ind s2 k = di := by
  have hfe : fnwEnd s2 = fnwEnd s := by
    cases hfnw : s.first_new_word with
    | none => simp [fnwEnd, hf, hfnw]
    | some k0 => simp [fnwEnd, hf, hfnw]
  refine @find_def_ind_mem s2 k ?_ ?_ ?_ ⟨k, di⟩ ?_ rfl
  · rw [hfe, hw]
    simp only [List.length_append, List.length_singleton]
    omega
  · rw [hfe, hw, List.take_append_of_le_length hend]
    exact hsort
  · rw [hw]
    simp only [List.map_append, List.map_singleton]
    rw [List.nodup_append]
    refine ⟨hnd, List.nodup_singleton _, ?_⟩
    intro x hx
    simp only [List.mem_singleton]
    intro hxk
    obtain ⟨wi, hwi, hwik⟩ := List.mem_map.mp hx
    subst hxk
    exact hfresh wi hwi hwik
  · rw [hw]
    exact List.mem_append_right _ (List.mem_singleton.mpr rfl)

/-- add_word with flushing disabled and duplicate checking skipped appends
    exactly the given key to the in-memory word list. -/
theorem add_word_words {w d : List Nat} {s : DictFile} {b : Bool} {s2 : DictFile}
    (h : add_word false true w d s = .ok (b, s2)) :
    s2.words.map WordInfo.word = s.words.map WordInfo.word ++ [w] := by
  simp only [add_word] at h
  rw [if_neg (by simp)] at h
  repeat' split at h
  all_goals first
  | (exact absurd ‹(false : Bool) = true› (by simp))
  | (rw [Except.ok.injEq, Prod.mk.injEq] at h
     obtain ⟨hb, hs⟩ := h
     subst hs
     simp)
  | simp at h

/-- A successful batch_loop run appends exactly the input lines (in order,
    as read) to the key multiset; the final flush permutes them. -/
theorem batch_loop_perm (fetch : List Nat → Option (List Nat))
    (transcode : List Nat → List Nat) :
    ∀ (input : List (List Nat)) (s sF : DictFile),
      batch_loop fetch transcode input s = .ok (some sF) →
      (sF.words.map WordInfo.word).Perm (s.words.map WordInfo.word ++ input) := by
  intro input
  induction input with
  | nil =>
    intro s sF h
    unfold batch_loop at h
    split at h
    · cases h
    · rename_i p heq
      rw [Except.ok.injEq, Option.some.injEq] at h
      subst h
      have heq2 : flush s = .ok (p.1, p.2) := heq
      rcases flush_sizes heq2 with ⟨_, _, hperm⟩ | ⟨_, _, hperm⟩ <;>
        simpa using hperm
  | cons w rest ih =>
    intro s sF h
    unfold batch_loop at h
    split at h
    · cases h
    · rename_i body hfetch
      split at h
      · cases h
      · rename_i b2 s2m heq
        have hw := add_word_words heq
        have hperm := ih s2m sF h
        rw [hw] at hperm
        refine hperm.trans (List.Perm.of_eq ?_)
        simp

theorem fromLE_take4_u64 (n : Nat) : fromLE (readBytes (u64le n) 0 4) = n % 2 ^ 32 := by
  have hsplit : u64le n = [n % 256, n / 256 % 256, n / 2 ^ 16 % 256, n / 2 ^ 24 % 256]
      ++ [n / 2 ^ 32 % 256, n / 2 ^ 40 % 256, n / 2 ^ 48 % 256, n / 2 ^ 56 % 256] := rfl
  rw [hsplit]
  rw [show (4 : Nat) = ([n % 256, n / 256 % 256, n / 2 ^ 16 % 256,
    n / 2 ^ 24 % 256]).length from by simp]
  rw [readBytes_append_pre]
  simp [fromLE]
  omega

/-- C2 (amended): on a well-formed state whose file and inserted definition
    are smaller than 2^32 bytes, where the fresh key k is not yet stored and
    the insert of v1 does not deduplicate against an already-stored record
    (deduplication disabled, or the size-and-hash probe finds no match),
    after a first add_word(k, v1) with flushing deferred (flush_words =
    false, the batch-tool configuration) succeeds, a later add_word(k, v2)
    with duplicate checking enabled and either flush flag returns false
    without touching the state - the duplicate check precedes any flush -
    and find(k) returns v1. -/
theorem C2_duplicate_insert (fw : Bool) (k v1 v2 : List Nat) (s s2 : DictFile)
    (hdd : s.do_dedup = false ∨ get_existing_def_ind s v1 = .ok none)
    (hend : fnwEnd s ≤ s.words.length)
    (hsort : (s.words.take (fnwEnd s)).Pairwise (fun a b => wLt b a = false))
    (hnd : (s.words.map WordInfo.word).Nodup)
    (hfresh : ∀ wi ∈ s.words, wi.word ≠ k)
    (hfit : defs_section_offset s.reserved_words s.words_sect_size ≤ s.fileData.length)
    (hflen : s.fileData.length < 2 ^ 32)
    (hv1 : v1.length < 2 ^ 32)
    (h1 : add_word false false k v1 s = .ok (true, s2)) :
    add_word fw false k v2 s2 = .ok (false, s2) ∧ find s2 k = some v1 := by
  have hnc : ¬ ((false : Bool) = false ∧ find_def_ind s k ≠ u32m1) := by
    rw [find_def_ind_not_mem s k hend hfresh]
    simp
  have hge : (if s.do_dedup = true then get_existing_def_ind s v1
      else (Except.ok none : Except String (Option Nat))) = .ok none := by
    rcases hdd with hdd | hdd
    · rw [hdd]
      simp
    · split
      · exact hdd
      · rfl
  have happ := add_word_append false k v1 s hnc hge hfit
  rw [happ, Except.ok.injEq, Prod.mk.injEq] at h1
  obtain ⟨-, hs2⟩ := h1
  have hw2 : s2.words = s.words ++ [⟨k, (s.fileData.length
      - defs_section_offset s.reserved_words s.words_sect_size) % 2 ^ 32⟩] := by
    rw [← hs2]
  have hf2 : s2.first_new_word = some (s.first_new_word.getD s.words.length) := by
    rw [← hs2]
  have hfd : s2.fileData
      = s.fileData ++ u32le v1.length ++ u64le (fnv1a v1 fnv_init) ++ v1 := by
    rw [← hs2]
  have hrw2 : s2.reserved_words = s.reserved_words := by rw [← hs2]
  have hws2 : s2.words_sect_size = s.words_sect_size := by rw [← hs2]
  have hdso : 19 ≤ defs_section_offset s.reserved_words s.words_sect_size := by
    unfold defs_section_offset words_section_offset inds_section_offset
    omega
  have hdi : (s.fileData.length
      - defs_section_offset s.reserved_words s.words_sect_size) % 2 ^ 32
      = s.fileData.length - defs_section_offset s.reserved_words s.words_sect_size :=
    Nat.mod_eq_of_lt (by omega)
  have hdine : (s.fileData.length
      - defs_section_offset s.reserved_words s.words_sect_size) % 2 ^ 32 ≠ u32m1 := by
    rw [hdi]
    unfold u32m1
    omega
  have hfind := find_def_ind_append hw2 hf2 hend hsort hnd hfresh
  constructor
  · unfold add_word
    rw [if_pos ⟨rfl, by rw [hfind]; exact hdine⟩]
  · simp only [find]
    rw [hfind, if_neg hdine]
    refine congrArg some ?_
    simp only [read_def_whole]
    rw [hrw2, hws2, hfd, hdi]
    rw [show defs_section_offset s.reserved_words s.words_sect_size
      + (s.fileData.length - defs_section_offset s.reserved_words s.words_sect_size)
      = s.fileData.length from by omega]
    obtain ⟨hr1, hr2, hr3⟩ := record_reads s.fileData v1 v1.length (fnv1a v1 fnv_init)
    rw [hr1, Nat.mod_eq_of_lt hv1]
    exact hr3 rfl

/-- C2 witness: on a fresh non-dedup dictionary, after add_word("a", [1]) a
    second add_word("a", [2]) returns false and find("a") still returns [1]. -/
theorem C2_duplicate_insert_witness :
    add_word false false [97] [2] c2s = .ok (false, c2s)
    ∧ find c2s [97] = some [1] :=
  C2_duplicate_insert false [97] [1] [2] (create_file false) c2s (Or.inl rfl)
    (by decide) (by decide) (by decide) (by decide) (by decide) (by decide)
    (by decide) rfl

/-- C2 counterexample to the unamended claim: a definition of 2^32 bytes has
    its size field truncated to 0 by the uint32 cast, so after a successful
    add_word the definition read back by find is empty, not the inserted
    bytes. -/
theorem C2_truncated_size :
    ∃ s2 : DictFile,
      add_word false false [97] (List.replicate (2 ^ 32) 0) (create_file false)
        = .ok (true, s2)
      ∧ find s2 [97] = some []
      ∧ (([] : List Nat) ≠ List.replicate (2 ^ 32) 0) := by
  have hnc : ¬ ((false : Bool) = false
      ∧ find_def_ind (create_file false) [97] ≠ u32m1) := by
    rw [find_def_ind_not_mem (create_file false) [97] (by decide)
      (by intro wi hwi; exact absurd hwi (List.not_mem_nil wi))]
    simp
  have hge : (if (create_file false).do_dedup = true
      then get_existing_def_ind (create_file false) (List.replicate (2 ^ 32) 0)
      else (Except.ok none : Except String (Option Nat))) = .ok none := rfl
  have hfit : defs_section_offset (create_file false).reserved_words
      (create_file false).words_sect_size ≤ (create_file false).fileData.length := by
    decide
  have happ := add_word_append false [97] (List.replicate (2 ^ 32) 0)
    (create_file false) hnc hge hfit
  obtain ⟨s2, hs2⟩ : ∃ s2, add_word false false [97] (List.replicate (2 ^ 32) 0)
      (create_file false) = .ok (true, s2) := ⟨_, happ⟩
  refine ⟨s2, hs2, ?_, ?_⟩
  · rw [happ, Except.ok.injEq, Prod.mk.injEq] at hs2
    obtain ⟨-, hR2⟩ := hs2
    have hw2 : s2.words = (create_file false).words ++ [⟨[97],
        ((create_file false).fileData.length - defs_section_offset
          (create_file false).reserved_words (create_file false).words_sect_size)
        % 2 ^ 32⟩] := by rw [← hR2]
    have hf2 : s2.first_new_word = some ((create_file false).first_new_word.getD
        (create_file false).words.length) := by rw [← hR2]
    have hfd : s2.fileData = (create_file false).fileData
        ++ u32le (List.replicate (2 ^ 32) 0).length
        ++ u64le (fnv1a (List.replicate (2 ^ 32) 0) fnv_init)
        ++ List.replicate (2 ^ 32) 0 := by rw [← hR2]
    have hrw2 : s2.reserved_words = (create_file false).reserved_words := by
      rw [← hR2]
    have hws2 : s2.words_sect_size = (create_file false).words_sect_size := by
      rw [← hR2]
    have hfind := find_def_ind_append (s := create_file false) hw2 hf2 (by decide)
      (by decide) (by decide) (by intro wi hwi; exact absurd hwi (List.not_mem_nil wi))
    have hdi0 : ((create_file false).fileData.length - defs_section_offset
        (create_file false).reserved_words (create_file false).words_sect_size)
        % 2 ^ 32 = 0 := by decide
    rw [hdi0] at hfind
    simp only [find]
    rw [hfind]
    rw [if_neg (by unfold u32m1; omega)]
    refine congrArg some ?_
    simp only [read_def_whole]
    rw [hrw2, hws2, hfd]
    rw [show defs_section_offset (create_file false).reserved_words
      (create_file false).words_sect_size + 0 = (create_file false).fileData.length
      from by decide]
    obtain ⟨hr1, -, -⟩ := record_reads (create_file false).fileData
      (List.replicate (2 ^ 32) 0) (List.replicate (2 ^ 32) 0).length
      (fnv1a (List.replicate (2 ^ 32) 0) fnv_init)
    rw [hr1]
    simp only [List.length_replicate]
    rw [Nat.mod_self]
    exact readBytes_zero _ _
  · intro hcon
    have h2 := congrArg List.length hcon
    simp only [List.length_nil, List.length_replicate] at h2
    omega

/-- C4 (amended): the hash a record carries is written correctly at the two
    honest write sites.  First conjunct: an add_word insert that appends a
    record (no dedup hit), with a definition smaller than 2^32 bytes on a
    file smaller than 2^32 bytes, stores the FNV-1a-64 hash of exactly the
    payload the size field reports; the size bound is essential, since the
    size field holds the uint32 truncation of the definition length, so a
    2^32-byte definition is recorded with size 0 and its stored hash is the
    hash of the full definition, not of the reported (empty) payload.
    Second conjunct: the dedup-enabled compaction copy writes a record
    carrying the old stored hash, self-consistent whenever the source record
    was and its size - a value read from a 4-byte field - is below 2^32.
    Third conjunct: the dedup-disabled compaction copy instead overwrites
    the record start with the recomputed hash, leaving its size field equal
    to the low 32 bits of the hash. -/
theorem C4_hash_write_sites :
    (∀ (sd : Bool) (k d : List Nat) (s s2 : DictFile),
      (if s.do_dedup = true then get_existing_def_ind s d
        else (Except.ok none : Except String (Option Nat))) = .ok none →
      d.length < 2 ^ 32 →
      s.fileData.length < 2 ^ 32 →
      defs_section_offset s.reserved_words s.words_sect_size ≤ s.fileData.length →
      add_word false sd k d s = .ok (true, s2) →
      goodDef s2.fileData (defs_section_offset s.reserved_words s.words_sect_size)
        (s.fileData.length - defs_section_offset s.reserved_words s.words_sect_size))
    ∧ (∀ (fOld f2 : List Nat) (cur size dsoNew oh : Nat) (eds : EdsMap)
        (r : List Nat × EdsMap × Nat),
      rw_append fOld true cur size dsoNew (some oh) f2 eds = .ok r →
      size < 2 ^ 32 →
      oh = fnv1a (readBytes fOld (cur + 12) size) fnv_init →
      dsoNew ≤ f2.length →
      r.2.2 = f2.length - dsoNew ∧ goodDef r.1 dsoNew r.2.2)
    ∧ (∀ (fOld f2 : List Nat) (cur size dsoNew : Nat) (oh : Option Nat)
        (eds : EdsMap) (r : List Nat × EdsMap × Nat),
      rw_append fOld false cur size dsoNew oh f2 eds = .ok r →
      dsoNew ≤ f2.length →
      readU32 r.1 (dsoNew + r.2.2)
        = fnv1a (readBytes fOld (cur + 12) size) fnv_init % 2 ^ 32) := by
  refine ⟨?_, ?_, ?_⟩
  · intro sd k d s s2 hge hd hflen hfit h
    by_cases hnc : sd = false ∧ find_def_ind s k ≠ u32m1
    · exfalso
      simp only [add_word] at h
      rw [if_pos hnc] at h
      simp at h
    · have happ := add_word_append sd k d s hnc hge hfit
      rw [happ, Except.ok.injEq, Prod.mk.injEq] at h
      obtain ⟨-, hs2⟩ := h
      have hfd : s2.fileData
          = s.fileData ++ u32le d.length ++ u64le (fnv1a d fnv_init) ++ d := by
        rw [← hs2]
      unfold goodDef
      rw [hfd]
      rw [show defs_section_offset s.reserved_words s.words_sect_size
        + (s.fileData.length - defs_section_offset s.reserved_words s.words_sect_size)
        = s.fileData.length from by omega]
      obtain ⟨hr1, hr2, hr3⟩ := record_reads s.fileData d d.length (fnv1a d fnv_init)
      rw [hr2, Nat.mod_eq_of_lt (fnv1a_lt d fnv_init (by norm_num [fnv_init])),
        hr1, Nat.mod_eq_of_lt hd, hr3 rfl]
  · intro fOld f2 cur size dsoNew oh eds r h hsize hoh hdso
    by_cases heof : cur + 12 + size > fOld.length
    · exfalso
      simp only [rw_append, if_pos heof] at h
      simp at h
    · simp only [rw_append, if_neg heof] at h
      simp only [show ((true : Bool) = true) = True from by simp, if_true,
        Option.getD_some] at h
      rw [Except.ok.injEq] at h
      subst h
      refine ⟨rfl, ?_⟩
      unfold goodDef
      show readU64 (f2 ++ u32le size ++ u64le oh ++ readBytes fOld (cur + 12) size)
          (dsoNew + (f2.length - dsoNew) + 4)
        = fnv1a (readBytes
            (f2 ++ u32le size ++ u64le oh ++ readBytes fOld (cur + 12) size)
            (dsoNew + (f2.length - dsoNew) + 12)
            (readU32 (f2 ++ u32le size ++ u64le oh ++ readBytes fOld (cur + 12) size)
              (dsoNew + (f2.length - dsoNew)))) fnv_init
      rw [show dsoNew + (f2.length - dsoNew) = f2.length from by omega]
      obtain ⟨hr1, hr2, hr3⟩ := record_reads f2 (readBytes fOld (cur + 12) size)
        size oh
      have hohlt : fnv1a (readBytes fOld (cur + 12) size) fnv_init < 2 ^ 64 :=
        fnv1a_lt _ fnv_init (by norm_num [fnv_init])
      rw [hr1, Nat.mod_eq_of_lt hsize, hr3 (length_readBytes fOld (cur + 12) size),
        hr2, hoh, Nat.mod_eq_of_lt hohlt]
  · intro fOld f2 cur size dsoNew oh eds r h hdso
    by_cases heof : cur + 12 + size > fOld.length
    · exfalso
      simp only [rw_append, if_pos heof] at h
      simp at h
    · simp only [rw_append, if_neg heof] at h
      simp only [show ((false : Bool) = true) = False from by simp, if_false] at h
      rw [Except.ok.injEq] at h
      subst h
      show readU32 (writeAt
          (f2 ++ u32le size ++ u64le fnv_init ++ readBytes fOld (cur + 12) size)
          (dsoNew + (f2.length - dsoNew))
          (u64le (fnv1a (readBytes fOld (cur + 12) size) fnv_init)))
          (dsoNew + (f2.length - dsoNew))
        = fnv1a (readBytes fOld (cur + 12) size) fnv_init % 2 ^ 32
      rw [show dsoNew + (f2.length - dsoNew) = f2.length from by omega]
      unfold readU32
      have hb : readBytes (writeAt
          (f2 ++ u32le size ++ u64le fnv_init ++ readBytes fOld (cur + 12) size)
          f2.length
          (u64le (fnv1a (readBytes fOld (cur + 12) size) fnv_init))) f2.length 4
          = readBytes (u64le (fnv1a (readBytes fOld (cur + 12) size) fnv_init)) 0 4 := by
        refine readBytes_congr 4 (fun i hi => ?_)
        rw [readByte_writeAt]
        rw [if_pos ⟨by omega, by simp [u64le]; omega⟩]
        unfold readByte
        congr 1
        omega
      rw [hb]
      exact fromLE_take4_u64 _

/-- C4 witness: the record appended by add_word("a", [1]) on a fresh
    non-dedup dictionary is self-consistent. -/
theorem C4_hash_write_sites_witness : goodDef c2s.fileData 531 0 :=
  C4_hash_write_sites.1 false [97] [1] (create_file false) c2s rfl (by decide)
    (by decide) (by decide) rfl

/-- C9 (amended): the batch tool is a sequential loop: a successful run over
    the input lines stores exactly those lines as keys, in the spelling they
    were read (the final flush only sorts them), and the loop stops at the
    first failed fetch (the tool exits instead of retrying concurrently). -/
theorem C9_sequential_tool :
    (∀ (input : List (List Nat)) (fetch : List Nat → Option (List Nat))
        (transcode : List Nat → List Nat) (sF : DictFile),
      batch_tool input fetch transcode = .ok (some sF) →
      (sF.words.map WordInfo.word).Perm input)
    ∧ (∀ (w : List Nat) (post : List (List Nat))
        (fetch : List Nat → Option (List Nat)) (transcode : List Nat → List Nat)
        (s : DictFile),
      fetch w = none →
      batch_loop fetch transcode (w :: post) s = .ok none) := by
  constructor
  · intro input fetch transcode sF h
    have hp := batch_loop_perm fetch transcode input (create_file true) sF h
    simpa [create_file] using hp
  · intro w post fetch transcode s hf
    unfold batch_loop
    rw [hf]

/-- C9 witness: with a fetch that always fails, the loop returns the exit
    marker immediately. -/
theorem C9_sequential_tool_witness :
    batch_loop (fun _ => none) (fun b => b) [[97]] (create_file true) = .ok none :=
  C9_sequential_tool.2 [97] [] (fun _ => none) (fun b => b) (create_file true) rfl

/-- C5: add_word with an empty definition does not fail; it returns true and
    appends a record whose size field is 0 (file grows from 531 to 543
    bytes), and reopening the resulting file is rejected as corruption.
    This contradicts the spec (and the debug assert in get_existing_def_ind):
    the insert was supposed to be an error. -/
theorem C5_empty_def_accepted :
    okBool (add_word true false [97] [] (create_file true)) = some true
    ∧ (okSt (add_word true false [97] [] (create_file true))).map
        (fun d => (readU32 d.fileData 531, d.fileData.length)) = some (0, 543)
    ∧ (okSt (add_word true false [97] [] (create_file true))).map
        (fun d => errStr (openDict d.fileData true true))
      = some (some "Read 0 definition size. File may be corrupted") := by
  refine ⟨by decide, by decide, by decide⟩

/-- C9 counterexample: the batch tool inserts each input line as read; for
    the input line "A" the resulting dictionary contains "A" and does not
    contain "a", so the tool does not lowercase words as the claim states
    (its main is a single sequential loop with no worker threads or rings). -/
theorem C9_not_lowercased :
    (okOptD (batch_tool [[65]] (fun _ => some [5]) (fun b => b))).map
      (fun d => (contains d [65], contains d [97], find d [65]))
    = some (true, false, some [5]) := by
  decide

/-- C1 counterexample: a key containing a null byte round-trips wrongly.
    [97, 0] is inserted (pairwise-distinct keys, non-empty definition) and
    flushed, but after reopen contains [97, 0] is false (and the truncated
    key [97] is reported present instead), because keys are written
    null-terminated. -/
theorem C1_null_key_lost :
    (okDict nullKeyRun).map
      (fun d => (contains d [97, 0], find d [97, 0], num_words d, contains d [97]))
    = some (false, none, 1, true) := by
  decide

/-- C3: with dedup enabled the growth run reads back the inserted byte [1]
    for growKey1, but with dedup disabled the rewrite_file path stores the
    recomputed hash at the START of each copied record (clobbering the size
    field with the low half of the hash), so the same lookup returns a
    payload of a completely different length: enabling or disabling dedup
    changes what find returns. -/
theorem C3_dedup_changes_reads :
    (okDict (growRun true)).map (fun d => find d growKey1) = some (some [1])
    ∧ (okDict (growRun false)).map (fun d => (find d growKey1).map List.length)
        = some (some (fnv1a [1] fnv_init % 2 ^ 32))
    ∧ fnv1a [1] fnv_init % 2 ^ 32 ≠ 1 := by
  refine ⟨by decide, ?_, by decide⟩
  have h : (okDict (growRun false)).map
      (fun d => (d.reserved_words, d.words_sect_size, find_def_ind d growKey1,
        readU32 d.fileData 787))
      = some (32, 512, 0, fnv1a [1] fnv_init % 2 ^ 32) := by decide
  cases hh : okDict (growRun false) with
  | none => rw [hh] at h; cases h
  | some d =>
    rw [hh] at h
    rw [Option.map_some', Option.some.injEq] at h
    have h1 : d.reserved_words = 32 := congrArg (·.1) h
    have h2 : d.words_sect_size = 512 := congrArg (·.2.1) h
    have h3 : find_def_ind d growKey1 = 0 := congrArg (·.2.2.1) h
    have h4 : readU32 d.fileData 787 = fnv1a [1] fnv_init % 2 ^ 32 :=
      congrArg (·.2.2.2) h
    rw [Option.map_some']
    rw [find_map_length d growKey1 (by rw [h3]; decide)]
    rw [h1, h2, h3]
    simp only [defs_section_offset, words_section_offset, inds_section_offset]
    rw [show 7 + 4 + 4 + 4 + 32 * 4 * 2 + 512 + 0 = 787 by decide, h4]

/-- C4 counterexample: in the dedup-disabled growth run the rewrite copied
    the payload [1] for growKey1 to record offset 0, but the stored header
    of that record carries neither the payload size 1 nor the FNV-1a-64 hash
    of [1]: the streaming rehash was written over the record start instead
    of the hash field.  The decide flags in the tuple assert the size field
    equals 1 and the hash field equals fnv1a [1]; both are false. -/
theorem C4_rewrite_breaks_hash :
    (okDict (growRun false)).map (fun d =>
      ((d.words.map (fun wi : WordInfo => (wi.word, wi.def_ind))).take 1,
       readBytes d.fileData (defs_section_offset 32 512 + 12) 1,
       decide (readU32 d.fileData (defs_section_offset 32 512) = 1),
       decide (readU64 d.fileData (defs_section_offset 32 512 + 4) = fnv1a [1] fnv_init)))
    = some ([(growKey1, 0)], [1], false, false) := by
  decide

/-- C6 counterexample: file275 claims reserved_words 32 and words_sect_size
    256, so its words section alone would need bytes up to offset 531, yet
    the file is only 275 bytes long; open still succeeds (the only size
    validation is reserved_words * 8 + num_words against the file size). -/
theorem C6_short_file_opens :
    (okDict (openDict file275 true true)).map
      (fun d => (num_words d, d.reserved_words, d.words_sect_size))
      = some (0, 32, 256)
    ∧ words_section_offset 32 + 256 > file275.length := by
  refine ⟨by decide, by decide⟩

end SDict
